import Mathlib

/-!
# Verification of the site-scraper core (casoon/site-scraper)

A shallow embedding of the TypeScript source of the site-scraper
repository, together with theorems settling the specification claims.

JavaScript strings are modelled as `List Char` (`Chars`); the relevant
behaviour of Node's `path` module (`join`, `normalize`, `dirname`,
`relative`) is modelled explicitly, since `urlToLocalPath` and
`makeRelative` (src/utils/url.ts) delegate to it.  Asynchronous code is
modelled as explicit state passing with event traces; fallible code
returns `Option`/`Except`.
-/

namespace SiteScraper

abbrev Chars := List Char

/-- Split a character list on a separator character; always returns a
non-empty list of separator-free groups (as `String.prototype.split`). -/
def splitOnChar (sep : Char) (cs : Chars) : List Chars :=
  cs.foldr
    (fun c acc =>
      match acc with
      | [] => [[c]]
      | g :: gs => if c = sep then [] :: g :: gs else (c :: g) :: gs)
    [[]]

/-- Join groups of characters with a separator (as `Array.prototype.join`). -/
def joinSep (sep : Char) : List Chars → Chars
  | [] => []
  | [g] => g
  | g :: gs => g ++ sep :: joinSep sep gs

/-- One step of Node's `normalizeString` segment processing:
skip empty and `.` segments, resolve `..` against the stack
(`allowAbove` is true for relative paths, where unresolvable `..`
segments are kept). -/
def normStep (allowAbove : Bool) (stack : List Chars) (seg : Chars) : List Chars :=
  if seg = [] ∨ seg = ['.'] then stack
  else if seg = ['.', '.'] then
    if stack ≠ [] ∧ stack.getLast? ≠ some ['.', '.'] then stack.dropLast
    else if allowAbove then stack ++ [seg]
    else stack
  else stack ++ [seg]

/-- Node `normalizeString`: fold the segments through `normStep`. -/
def normSegs (allowAbove : Bool) (segs : List Chars) : List Chars :=
  segs.foldl (normStep allowAbove) []

/-- Model of Node `path.posix.normalize`. -/
def pathNormalize (s : Chars) : Chars :=
  let isAbs := s.head? = some '/'
  let trailing := s.getLast? = some '/'
  let segs := normSegs (!isAbs) (splitOnChar '/' s)
  if segs = [] then (if isAbs then ['/'] else ['.'])
  else
    let body := joinSep '/' segs
    let r := if isAbs then '/' :: body else body
    if trailing then r ++ ['/'] else r

/-- Model of Node `path.posix.join` on two arguments: empty arguments are
dropped, the rest are joined with `/` and normalized; an empty join
yields `"."`. -/
def pathJoin (a b : Chars) : Chars :=
  let joined := if a = [] then b else if b = [] then a else a ++ '/' :: b
  if joined = [] then ['.'] else pathNormalize joined

/-- Model of Node `path.posix.dirname`. -/
def dirname (p : Chars) : Chars :=
  if p = [] then ['.']
  else
    let hasRoot := p.head? = some '/'
    -- reversed characters with the trailing slash run removed
    let trimmed := p.reverse.dropWhile (· = '/')
    -- reversed characters from the next '/' (the dirname cut) to the front
    let rest := trimmed.dropWhile (· ≠ '/')
    match rest with
    | [] => if hasRoot then ['/'] else ['.']
    | _ :: tail =>
      if tail = [] then (if hasRoot then ['/'] else ['.'])
      else if hasRoot ∧ tail.length = 1 then ['/', '/']
      else tail.reverse

/-- Model of Node `path.posix.resolve` for a single path, taking the
working directory to be the filesystem root (the call sites of
`makeRelative` only ever pass absolute or `outDir`-rooted paths). -/
def resolveAbs (p : Chars) : Chars :=
  let segs := normSegs false (splitOnChar '/' p)
  if segs = [] then ['/'] else '/' :: joinSep '/' segs

/-- Model of Node `path.posix.relative`: resolve both paths, drop the
common segment prefix, climb with `..` for what remains of `from` and
descend into what remains of `to`. -/
def pathRelative (src dst : Chars) : Chars :=
  let fs := (splitOnChar '/' (resolveAbs src)).filter (· ≠ [])
  let ts := (splitOnChar '/' (resolveAbs dst)).filter (· ≠ [])
  let common := (List.zip fs ts).takeWhile (fun p => p.1 = p.2) |>.length
  joinSep '/' (List.replicate (fs.length - common) ['.', '.'] ++ ts.drop common)

/-- True when the pathname matches the source regex `/\.[a-z0-9]+$/i`:
the string ends in a dot followed by one or more ASCII alphanumerics. -/
def hasExt (p : Chars) : Bool :=
  let r := p.reverse
  let run := r.takeWhile Char.isAlphanum
  decide (run ≠ []) && decide ((r.drop run.length).head? = some '.')

/-- `safeFilename` from src/utils/filesystem.ts: replace every character
outside `[A-Za-z0-9._-]` with `_`, collapse runs of `_`, trim leading
and trailing `_`. -/
def safeChar (c : Char) : Bool :=
  c.isAlphanum || c = '.' || c = '_' || c = '-'

def collapseUnderscores : Chars → Chars
  | [] => []
  | '_' :: rest =>
    match collapseUnderscores rest with
    | '_' :: out => '_' :: out
    | out => '_' :: out
  | c :: rest => c :: collapseUnderscores rest

def safeFilename (s : Chars) : Chars :=
  let replaced := s.map (fun c => if safeChar c then c else '_')
  let collapsed := collapseUnderscores replaced
  (collapsed.dropWhile (· = '_')).reverse.dropWhile (· = '_') |>.reverse

/-- `String.prototype.split(sep)[0]`: the prefix before the first
occurrence of `sep`. -/
def splitHead (sep : Char) (s : Chars) : Chars :=
  s.takeWhile (· ≠ sep)

/-- A URL as far as `urlToLocalPath` observes it: origin, host and
pathname (the WHATWG `URL` class guarantees the pathname of an
http(s) URL starts with `/` and contains no `?`, `#` or `\` and no
`.`/`..` segments; see `ValidPathname`). -/
structure Url where
  origin : Chars
  host : Chars
  pathname : Chars
deriving DecidableEq, Repr

/-- `urlToLocalPath` from src/utils/url.ts. -/
def urlToLocalPath (root target : Url) (outDir : Chars) (extHint : Option Chars) : Chars :=
  if target.origin ≠ root.origin then
    -- external: keep hostname as subfolder
    let hostDir := pathJoin outDir (safeFilename target.host)
    let pathname :=
      if target.pathname.getLast? = some '/' then target.pathname ++ "index".data
      else target.pathname
    let withExt := if hasExt pathname then pathname else pathname ++ (extHint.getD [])
    splitHead '#' (splitHead '?' (pathJoin hostDir withExt))
  else
    -- same-origin
    let p := target.pathname
    let p :=
      if p.getLast? = some '/' then pathJoin p "index.html".data
      else if hasExt p then p else p ++ ".html".data
    splitHead '#' (splitHead '?' (pathJoin outDir p))

/-- `makeRelative` from src/utils/url.ts. -/
def makeRelative (fromFile toFile : Chars) : Chars :=
  let rel := pathRelative (dirname fromFile) toFile
  let rel := if rel.head? = some '.' then rel else '.' :: '/' :: rel
  rel.map (fun c => if c = '\\' then '/' else c)

/-- The same-origin pathname transformation performed inside
`urlToLocalPath`: a trailing `/` leads to a joined `index.html`, a
pathname without a recognizable extension gets `.html` appended. -/
def normPathname (p : Chars) : Chars :=
  if p.getLast? = some '/' then pathJoin p "index.html".data
  else if hasExt p then p else p ++ ".html".data

/-- The non-empty path segments of the transformed same-origin pathname
(the normalization of the claim, with repeated slashes collapsed). -/
def sameOriginSegs (p : Chars) : List Chars :=
  (splitOnChar '/' (normPathname p)).filter (· ≠ [])

/-- The guarantees the WHATWG `URL` class gives for the `pathname` of an
http(s) URL: it starts with `/`, contains no `?` or `#` (those delimit
query and fragment and are percent-encoded inside a path), and has no
`.` or `..` segments (the URL parser resolves them). -/
def ValidPathname (p : Chars) : Bool :=
  decide (p.head? = some '/') &&
  p.all (fun c => !(c = '?' || c = '#')) &&
  (splitOnChar '/' p).all (fun g => !(g = ['.'] || g = ['.', '.']))

/-- An output directory string free of `?` and `#` (otherwise the final
`split('?')[0].split('#')[0]` in `urlToLocalPath` truncates the path). -/
def CleanDir (d : Chars) : Bool :=
  d.all (fun c => !(c = '?' || c = '#'))

/-- Modelled from the spec claim's own words, for comparison with the
source: "A.pathname ≠ B.pathname (after normalizing trailing slash to
`index.html` and extensionless paths to `.html`)" — plain string
normalization without any path-join slash collapsing. -/
def specNormalizedPathname (p : Chars) : Chars :=
  if p.getLast? = some '/' then p ++ "index.html".data
  else if hasExt p then p else p ++ ".html".data

/-- Whether joining onto `outDir` produces an absolute path. -/
def dirIsAbs (outDir : Chars) : Bool :=
  if outDir = [] then true else decide (outDir.head? = some '/')

/-- The normalized segment stack contributed by `outDir` to a join. -/
def dirStack (outDir : Chars) : List Chars :=
  normSegs (!dirIsAbs outDir) (splitOnChar '/' outDir)

/-- The normalized form `pathJoin outDir np` takes when `np` is a
transformed same-origin pathname with segment list `segs`: the
directory's own normalized segment stack followed by `segs`, with a
leading `/` exactly when the join is absolute. -/
def joinedPath (outDir : Chars) (segs : List Chars) : Chars :=
  if dirIsAbs outDir then '/' :: joinSep '/' (dirStack outDir ++ segs)
  else joinSep '/' (dirStack outDir ++ segs)

/-! ## Model of `fetchWithRetry` (src/network/fetch.ts) -/

/-- Outcome of one network attempt: a network-level error (opaque code)
or an HTTP response carrying a status. -/
inductive AttemptOutcome where
  | netErr (code : Nat)
  | resp (status : Nat)
deriving DecidableEq, Repr

/-- `Response.ok`: status in the 200..299 range. -/
def respOk (status : Nat) : Bool :=
  decide (200 ≤ status) && decide (status < 300)

/-- The error a failed attempt stores in `lastErr`: the network error
itself, or the thrown `Error('HTTP <status>')` for a non-ok response. -/
inductive FetchErr where
  | net (code : Nat)
  | http (status : Nat)
deriving DecidableEq, Repr

/-- Whether an attempt counts as a failure, and with which error. -/
def attemptFails : AttemptOutcome → Option FetchErr
  | .netErr c => some (.net c)
  | .resp s => if respOk s then none else some (.http s)

/-- Observable trace of one `fetchWithRetry` call: the returned response
(attempt index and status) or the thrown `lastErr` (`none` models the
`undefined` thrown when `tries = 0`), the backoff delays awaited in
order, and the number of attempts made. -/
structure RetryTrace where
  result : Except (Option FetchErr) (Nat × Nat)
  waits : List Nat
  attempts : Nat
deriving Repr

/-- The retry loop of `fetchWithRetry`: `rem` attempts remain, `i` is
the index of the next attempt; a failed attempt `i` with attempts
remaining awaits `backoffMs * 2 ^ i`. The process-wide `requestDelayMs`
is 0 (its default), so only backoff delays occur. -/
def retryGo (att : Nat → AttemptOutcome) (backoffMs : Nat) :
    Nat → Nat → Option FetchErr → List Nat → RetryTrace
  | 0, i, lastErr, waits => ⟨.error lastErr, waits, i⟩
  | rem + 1, i, _, waits =>
    match att i with
    | .resp s =>
      if respOk s then ⟨.ok (i, s), waits, i + 1⟩
      else
        retryGo att backoffMs rem (i + 1) (some (.http s))
          (if 0 < rem then waits ++ [backoffMs * 2 ^ i] else waits)
    | .netErr c =>
      retryGo att backoffMs rem (i + 1) (some (.net c))
        (if 0 < rem then waits ++ [backoffMs * 2 ^ i] else waits)

/-- `fetchWithRetry(url, tries, backoffMs)` from src/network/fetch.ts,
with the per-URL sequence of attempt outcomes supplied by `att`. -/
def fetchWithRetry (att : Nat → AttemptOutcome) (tries backoffMs : Nat) : RetryTrace :=
  retryGo att backoffMs tries 0 none []

/-! ## Model of the crawl engine (src/crawler.ts) -/

/-- `CrawlOptions` from src/crawler.ts (the placeholder strategy plays
no role in scheduling). -/
structure CrawlOptions where
  maxDepth : Nat
  concurrency : Nat
  sitemap : Bool
deriving DecidableEq, Repr

/-- What one successful page fetch gives the crawler: the response
content type, whether `rewriteAndSaveHTML` succeeds, and the links
`extractLinks` returns for the page (already same-origin, fragment
stripped). -/
structure FetchedPage where
  contentType : Chars
  rewriteOk : Bool
  links : List Chars
deriving DecidableEq, Repr

/-- Crawl environment: the strings `discoverFromSitemap` returns, the
result of `new URL(s)` (its origin; `none` when the constructor
throws), and the network (`none` models a fetch whose retries are
exhausted and which throws). -/
structure CrawlEnv where
  sitemapSeeds : List Chars
  parseOrigin : Chars → Option Chars
  fetch : Chars → Option FetchedPage

/-- `url.toString().split('#')[0]`: the canonical, fragment-free key. -/
def canonKey (url : Chars) : Chars := splitHead '#' url

/-- `ct.includes('text/html')`. -/
def isHtmlCT (ct : Chars) : Bool := decide ("text/html".data <:+: ct)

/-- Observable state of one crawl run: the visited set, the log of
`fetchWithRetry` invocations `processPage` makes (canonical key and
depth, in order), and the sizes of the batches the drain loop
dispatched. -/
structure CrawlState where
  seen : List Chars
  fetchLog : List (Chars × Nat)
  batchLog : List Nat
deriving DecidableEq, Repr

/-- `processPage` from src/crawler.ts. The `seen.has`/`seen.add` pair
runs synchronously (no `await` between them), so it is atomic under the
event loop; the returned list holds the items pushed onto `toVisit`.
The fetch is logged before its outcome is inspected, since
`fetchWithRetry` is invoked either way. -/
def processPage (env : CrawlEnv) (opts : CrawlOptions) (st : CrawlState)
    (url : Chars) (depth : Nat) : CrawlState × List (Chars × Nat) :=
  let key := canonKey url
  if key ∈ st.seen then (st, [])
  else
    let st' : CrawlState :=
      { st with seen := key :: st.seen, fetchLog := st.fetchLog ++ [(key, depth)] }
    match env.fetch key with
    | none => (st', [])
    | some page =>
      if !isHtmlCT page.contentType then (st', [])
      else if !page.rewriteOk then (st', [])
      else if depth < opts.maxDepth then
        (st', (page.links.filter
            (fun l => !decide (canonKey l ∈ st'.seen))).map (fun l => (l, depth + 1)))
      else (st', [])

/-- One batch, processed item by item. The real batch runs its items
concurrently, but each item's visited-set check-and-insert is atomic
(see `processPage`), so this sequentialization preserves the observable
visited/fetch behaviour. -/
def processBatch (env : CrawlEnv) (opts : CrawlOptions) :
    CrawlState → List (Chars × Nat) → CrawlState × List (Chars × Nat)
  | st, [] => (st, [])
  | st, (u, d) :: rest =>
    let r := processPage env opts st u d
    let r' := processBatch env opts r.1 rest
    (r'.1, r.2 ++ r'.2)

/-- The `while (toVisit.length)` drain loop of `crawl`: take a batch of
up to `concurrency` items, process it fully, append the newly pushed
items, repeat. `fuel` bounds the number of iterations (the source loops
until the frontier empties). -/
def crawlLoop (env : CrawlEnv) (opts : CrawlOptions) :
    Nat → List (Chars × Nat) → CrawlState → CrawlState
  | 0, _, st => st
  | _ + 1, [], st => st
  | fuel + 1, frontier, st =>
    let batch := frontier.take opts.concurrency
    let rest := frontier.drop opts.concurrency
    let st' : CrawlState := { st with batchLog := st.batchLog ++ [batch.length] }
    let r := processBatch env opts st' batch
    crawlLoop env opts fuel (rest ++ r.2) r.1

/-- `crawl` from src/crawler.ts: parse the start URL, optionally merge
the same-origin sitemap seeds into the frontier at depth 1, then drain. -/
def crawl (env : CrawlEnv) (opts : CrawlOptions) (startUrl : Chars) (fuel : Nat) :
    CrawlState :=
  match env.parseOrigin startUrl with
  | none => ⟨[], [], []⟩
  | some rootOrigin =>
    let seeds :=
      if opts.sitemap then
        (env.sitemapSeeds.filter (fun s =>
          match env.parseOrigin s with
          | some o => decide (o = rootOrigin)
          | none => false)).map (fun s => (s, 1))
      else []
    crawlLoop env opts fuel ((startUrl, 0) :: seeds) ⟨[], [], []⟩

/-! ## Model of `processStylesheet` (src/processors/stylesheet.ts) -/

/-- JavaScript `String.prototype.trim` (restricted to ASCII whitespace). -/
def trimChars (s : Chars) : Chars :=
  (s.dropWhile Char.isWhitespace).reverse.dropWhile Char.isWhitespace |>.reverse

/-- `raw.replace(/^['"]|['"]$/g, '')`: strip one leading and one
trailing quote character. -/
def stripQuotes (s : Chars) : Chars :=
  let s1 := match s with
    | c :: rest => if c = '\'' ∨ c = '"' then rest else s
    | [] => []
  match s1.reverse with
  | c :: rest => if c = '\'' ∨ c = '"' then rest.reverse else s1
  | [] => s1

/-- The image-extension test `/\.(png|jpe?g|gif|svg|webp|ico)$/i` used
to pick silent downloads. -/
def hasImageExt (p : Chars) : Bool :=
  let lower := p.map Char.toLower
  [".png", ".jpg", ".jpeg", ".gif", ".svg", ".webp", ".ico"].any
    (fun ext => List.isSuffixOf ext.data lower)

/-- Environment of `processStylesheet`: the stylesheet fetch (`none`
models an exhausted retry that throws), URL resolution against the
stylesheet's own URL (`none` models a `new URL` throw), and the outcome
of each `downloadBinary` call (a `Bool`; `downloadBinary` never
throws). -/
structure StylesheetEnv where
  fetchText : Url → Option Chars
  resolve : Chars → Url → Option Url
  downloadOk : Url → Chars → Bool

/-- A download scheduled by the css rewriter: asset URL, destination
path, and the silent flag. -/
structure DlSpec where
  url : Url
  dest : Chars
  silent : Bool
deriving DecidableEq, Repr

/-- Events `processStylesheet` performs after obtaining the stylesheet
text, in order: the single CSS write, then the awaited download
results. -/
inductive CssEvent where
  | write (path : Chars) (content : Chars)
  | awaitDownload (url : Url) (dest : Chars) (silent : Bool) (ok : Bool)
deriving DecidableEq, Repr

/-- The replacement computed for one `url(p1)` occurrence: the text that
replaces the match and the download it schedules (empty when the
reference is left untouched). -/
def cssReplacer (env : StylesheetEnv) (root cssUrl : Url) (outDir : Chars)
    (allowExternalAssets : Bool) (cssPath : Chars) (p1 : Chars) : Chars × List DlSpec :=
  let matchText := "url(".data ++ p1 ++ [')']
  let raw := stripQuotes (trimChars p1)
  if raw = [] ∨ List.isPrefixOf "data:".data raw then (matchText, [])
  else
    match env.resolve raw cssUrl with
    | none => (matchText, [])
    | some assetUrl =>
      if assetUrl.origin ≠ root.origin ∧ allowExternalAssets = false then (matchText, [])
      else
        let localPath := urlToLocalPath root assetUrl outDir none
        let isImage := hasImageExt localPath
        let rel := makeRelative cssPath localPath
        ("url(".data ++ rel ++ [')'], [⟨assetUrl, localPath, isImage⟩])

/-- Single-pass model of `css.replace(/url\(([^)]+)\)/g, ...)`: find a
literal `url(`, capture one or more non-`)` characters, require the
closing `)`; on a match emit the replacement and resume after it,
otherwise advance one character. Every step consumes at least one
character, so running with fuel `cs.length` is exact. -/
def scanCssGo (repl : Chars → Chars × List DlSpec) : Nat → Chars → Chars × List DlSpec
  | 0, cs => (cs, [])
  | _ + 1, [] => ([], [])
  | fuel + 1, c :: rest =>
    if List.isPrefixOf "url(".data (c :: rest) then
      let afterParen := (c :: rest).drop 4
      let inner := afterParen.takeWhile (· ≠ ')')
      let after := afterParen.drop inner.length
      if inner ≠ [] ∧ after.head? = some ')' then
        let r := repl inner
        let r' := scanCssGo repl fuel (after.drop 1)
        (r.1 ++ r'.1, r.2 ++ r'.2)
      else
        let r' := scanCssGo repl fuel rest
        (c :: r'.1, r'.2)
    else
      let r' := scanCssGo repl fuel rest
      (c :: r'.1, r'.2)

def scanCss (repl : Chars → Chars × List DlSpec) (cs : Chars) : Chars × List DlSpec :=
  scanCssGo repl cs.length cs

/-- `processStylesheet` from src/processors/stylesheet.ts. The error
case models the propagated fetch failure; on success the CSS write
happens before the scheduled downloads are awaited. -/
def processStylesheet (env : StylesheetEnv) (root cssUrl : Url) (outDir : Chars)
    (allowExternalAssets : Bool) : Except Unit (Chars × List CssEvent) :=
  match env.fetchText cssUrl with
  | none => .error ()
  | some css =>
    let cssPath := urlToLocalPath root cssUrl outDir none
    let r := scanCss (cssReplacer env root cssUrl outDir allowExternalAssets cssPath) css
    .ok (cssPath,
      CssEvent.write cssPath r.1 ::
        r.2.map (fun t => CssEvent.awaitDownload t.url t.dest t.silent
          (env.downloadOk t.url t.dest)))

/-! ## Model of `rewriteAndSaveHTML` (src/processors/html.ts) -/

inductive PlaceholderStrategy where
  | external
  | localImg
deriving DecidableEq, Repr

/-- `RewriteOptions` from src/processors/html.ts. -/
structure RewriteOptions where
  allowExternalAssets : Bool
  placeholder : PlaceholderStrategy
deriving DecidableEq, Repr

/-- `PlaceholderResult` from src/processors/image.ts (probe failures are
caught inside `getPlaceholderForImage`, so it is total). -/
structure PlaceholderResult where
  src : Chars
  width : Option Nat
  height : Option Nat
deriving DecidableEq, Repr

structure LinkEl where
  href : Chars
deriving DecidableEq, Repr

structure ScriptEl where
  src : Chars
deriving DecidableEq, Repr

structure ImgEl where
  src : Chars
  width : Option Chars
  height : Option Chars
  srcset : Option Chars
deriving DecidableEq, Repr

structure AnchorEl where
  href : Chars
deriving DecidableEq, Repr

/-- The parsed document as far as the rewriter observes it. -/
structure Doc where
  stylesheets : List LinkEl
  scripts : List ScriptEl
  imgs : List ImgEl
  anchors : List AnchorEl
deriving DecidableEq, Repr

/-- Environment of the document rewriter: URL resolution against the
page URL, the stylesheet processor's environment, the image placeholder
provider, and the outcomes of script downloads. -/
structure RewriteEnv where
  resolve : Chars → Url → Option Url
  css : StylesheetEnv
  placeholder : Url → PlaceholderResult
  jsDownloadOk : Url → Chars → Bool

/-- DOM attribute truthiness: `$el.attr(name)` is falsy when the
attribute is absent or empty. -/
def attrTruthy : Option Chars → Bool
  | none => false
  | some s => decide (s ≠ [])

/-- One stylesheet `<link>`: result element, whether an async task was
spawned, and whether the task failed (a `processStylesheet` throw,
which rejects the whole rewrite). -/
def processLink (env : RewriteEnv) (opts : RewriteOptions) (root pageUrl : Url)
    (outDir : Chars) (el : LinkEl) : LinkEl × Bool × Bool :=
  match env.resolve el.href pageUrl with
  | none => (el, false, false)
  | some url =>
    if url.origin ≠ root.origin ∧ opts.allowExternalAssets = false then (el, false, false)
    else
      match processStylesheet env.css root url outDir opts.allowExternalAssets with
      | .error _ => (el, true, true)
      | .ok r =>
        ({ el with href := makeRelative (urlToLocalPath root pageUrl outDir none) r.1 },
          true, false)

/-- One `<script src>`: the download result is ignored (`downloadBinary`
never throws), and `src` is rewritten either way. -/
def processScript (env : RewriteEnv) (opts : RewriteOptions) (root pageUrl : Url)
    (outDir : Chars) (sc : ScriptEl) : ScriptEl × Bool :=
  match env.resolve sc.src pageUrl with
  | none => (sc, false)
  | some url =>
    if url.origin ≠ root.origin ∧ opts.allowExternalAssets = false then (sc, false)
    else
      let jsPath := urlToLocalPath root url outDir (some ".js".data)
      ({ sc with src := makeRelative (urlToLocalPath root pageUrl outDir none) jsPath },
        true)

/-- One `<img src>`: always processed when the src is parseable — no
origin check and no `allowExternalAssets` consultation. -/
def processImg (env : RewriteEnv) (opts : RewriteOptions) (root pageUrl : Url)
    (outDir : Chars) (img : ImgEl) : ImgEl × Bool :=
  match env.resolve img.src pageUrl with
  | none => (img, false)
  | some url =>
    let ph := env.placeholder url
    let src :=
      if opts.placeholder = PlaceholderStrategy.localImg ∧ ph.src ≠ [] then
        makeRelative (urlToLocalPath root pageUrl outDir none) ph.src
      else ph.src
    let width := match ph.width with
      | some w => if w ≠ 0 ∧ attrTruthy img.width = false
          then some (Nat.repr w).data else img.width
      | none => img.width
    let height := match ph.height with
      | some h => if h ≠ 0 ∧ attrTruthy img.height = false
          then some (Nat.repr h).data else img.height
      | none => img.height
    (⟨src, width, height, none⟩, true)

/-- Anchor rewriting (after all asset tasks resolve): only resolvable,
same-origin hrefs are rewritten. -/
def processAnchor (env : RewriteEnv) (root pageUrl : Url) (outDir : Chars)
    (a : AnchorEl) : AnchorEl :=
  let href := trimChars a.href
  match env.resolve href pageUrl with
  | none => a
  | some url =>
    if url.origin ≠ root.origin then a
    else
      let rel := makeRelative (urlToLocalPath root pageUrl outDir none)
        (urlToLocalPath root url outDir none)
      { a with href := rel }

/-- Result of a successful rewrite: the rewritten document, the output
file, and the number of asset sub-tasks spawned. Every spawned sub-task
issues its first network request synchronously at spawn (the `.each`
loops run synchronously and each task body immediately awaits a fetch),
and all of them are awaited by one `Promise.all`, so all spawned tasks
are simultaneously in flight; none of them goes through the crawler's
`pLimit` gate. -/
structure RewriteResult where
  doc : Doc
  outFile : Chars
  spawnedTasks : Nat
deriving DecidableEq, Repr

/-- `rewriteAndSaveHTML` from src/processors/html.ts. The error case
models a rejected css task (stylesheet fetch failure) rejecting the
`Promise.all` and hence the whole call. -/
def rewriteAndSaveHTML (env : RewriteEnv) (root pageUrl : Url) (doc : Doc)
    (outDir : Chars) (opts : RewriteOptions) : Except Unit RewriteResult :=
  let pagePath := urlToLocalPath root pageUrl outDir none
  let links := doc.stylesheets.map (processLink env opts root pageUrl outDir)
  let scripts := doc.scripts.map (processScript env opts root pageUrl outDir)
  let imgs := doc.imgs.map (processImg env opts root pageUrl outDir)
  let spawned := (links.filter (fun r => r.2.1)).length +
    (scripts.filter (fun r => r.2)).length + (imgs.filter (fun r => r.2)).length
  if links.any (fun r => r.2.2) then .error ()
  else
    .ok ⟨⟨links.map (fun r => r.1), scripts.map (fun r => r.1), imgs.map (fun r => r.1),
      doc.anchors.map (processAnchor env root pageUrl outDir)⟩, pagePath, spawned⟩

/-! ## Model of `discoverFromSitemap` (src/parsers/sitemap.ts) -/

/-- Environment of the sitemap seeder: the browser-session flag from
src/network/challenge.ts and the network. -/
structure SitemapEnv where
  browserSession : Bool
  fetchText : Chars → Option Chars

/-- Single-pass model of `xml.matchAll(/<loc>([^<]+)<\/loc>/g)`:
find `<loc>`, capture one or more non-`<` characters, require the
closing `</loc>`. Every step consumes at least one character, so fuel
`cs.length` is exact. -/
def scanLocsGo : Nat → Chars → List Chars
  | 0, _ => []
  | _ + 1, [] => []
  | fuel + 1, c :: rest =>
    if List.isPrefixOf "<loc>".data (c :: rest) then
      let afterOpen := (c :: rest).drop 5
      let inner := afterOpen.takeWhile (· ≠ '<')
      let after := afterOpen.drop inner.length
      if inner ≠ [] ∧ List.isPrefixOf "</loc>".data after then
        inner :: scanLocsGo fuel (after.drop 6)
      else scanLocsGo fuel rest
    else scanLocsGo fuel rest

def scanLocs (cs : Chars) : List Chars := scanLocsGo cs.length cs

/-- `discoverFromSitemap` from src/parsers/sitemap.ts. Returns the found
URLs and the list of sitemap URLs actually fetched. -/
def discoverFromSitemap (env : SitemapEnv) (root : Url) : List Chars × List Chars :=
  if env.browserSession then ([], [])
  else
    let candidates := [root.origin ++ "/sitemap.xml".data,
      root.origin ++ "/sitemap_index.xml".data]
    candidates.foldl
      (fun acc url =>
        match env.fetchText url with
        | none => (acc.1, acc.2 ++ [url])
        | some xml =>
          let locs := scanLocs xml
          (if locs ≠ [] then acc.1 ++ locs else acc.1, acc.2 ++ [url]))
      ([], [])

/-- `hasBrowserSession` (src/network/challenge.ts): the shared page
exists and is not closed; carried as a single flag here. -/
def hasBrowserSession (env : SitemapEnv) : Bool := env.browserSession

/-! ## Model of `extractLinks` (src/parsers/links.ts) -/

/-- A resolved URL as `extractLinks` observes it: its origin, the rest
of its serialization up to the fragment, and its fragment. Its
`toString()` is `origin ++ pathq` followed by `#frag` when the fragment
is non-empty. -/
structure ResolvedUrl where
  origin : Chars
  pathq : Chars
  frag : Chars
deriving DecidableEq, Repr

def ResolvedUrl.str (u : ResolvedUrl) : Chars :=
  u.origin ++ u.pathq ++ (if u.frag = [] then [] else '#' :: u.frag)

/-- Environment of `extractLinks`: resolution of an href against the
document URL (`none` when `new URL(href, docUrl)` throws). -/
structure LinksEnv where
  resolve : Chars → Option ResolvedUrl

/-- One `<a href>` handled by the `extractLinks` loop body: trim, drop
empty and `mailto:`/`tel:`/`javascript:` hrefs, resolve, keep
same-origin URLs, strip the fragment, insert into the `Set` (insertion
order, no duplicates). -/
def extractLinksGo (env : LinksEnv) (rootOrigin : Chars) (urls : List Chars)
    (href : Chars) : List Chars :=
  let href := trimChars href
  if href = [] ∨ List.isPrefixOf "mailto:".data href ∨
      List.isPrefixOf "tel:".data href ∨
      List.isPrefixOf "javascript:".data href then urls
  else
    match env.resolve href with
    | none => urls
    | some url =>
      if url.origin = rootOrigin then
        let key := canonKey url.str
        if key ∈ urls then urls else urls ++ [key]
      else urls

/-- `extractLinks` from src/parsers/links.ts (the final
`Array.from(urls).map(u => new URL(u))` re-parses the deduplicated
strings; the strings are returned here). -/
def extractLinks (env : LinksEnv) (rootOrigin : Chars) (hrefs : List Chars) :
    List Chars :=
  hrefs.foldl (extractLinksGo env rootOrigin) []

/-! ## Concrete demonstration inputs used by witnesses and counterexamples -/

/-- A small concrete site: `/` links to `/a` and itself, `/a` links to
`/b`, and the sitemap exposes `/s` plus a cross-origin URL. -/
def demoEnv : CrawlEnv :=
  { sitemapSeeds := ["http://e.com/s".data, "http://other.com/x".data]
    parseOrigin := fun s =>
      if List.isPrefixOf "http://e.com".data s then some "http://e.com".data
      else if List.isPrefixOf "http://other.com".data s then some "http://other.com".data
      else none
    fetch := fun key =>
      if key = "http://e.com/".data then
        some ⟨"text/html".data, true, ["http://e.com/a".data, "http://e.com/".data]⟩
      else if key = "http://e.com/a".data then
        some ⟨"text/html".data, true, ["http://e.com/b".data]⟩
      else if key = "http://e.com/b".data then
        some ⟨"text/html".data, true, []⟩
      else if key = "http://e.com/s".data then
        some ⟨"text/html".data, true, []⟩
      else none }

def demoRoot : Url := ⟨"http://e.com".data, "e.com".data, "/".data⟩

/-- A page with two images (and nothing else). -/
def demoImgDoc : Doc :=
  ⟨[], [], [⟨"/i1.png".data, none, none, some "a 1x".data⟩,
    ⟨"/i2.png".data, none, none, none⟩], []⟩

/-- A rewrite environment that resolves root-relative references
against the base URL's origin and probes every image at 800x450. -/
def demoRewriteEnv : RewriteEnv :=
  { resolve := fun src base =>
      if src.head? = some '/' then some ⟨base.origin, base.host, src⟩ else none
    css := ⟨fun _ => some "".data, fun _ _ => none, fun _ _ => true⟩
    placeholder := fun _ => ⟨"https://placehold.co/800x450".data, some 800, some 450⟩
    jsDownloadOk := fun _ _ => true }

/-- A concrete link-resolution environment: `/a` and `/a#y` both
resolve to the same document with fragment `y`; everything else throws. -/
def demoLinksEnv : LinksEnv :=
  ⟨fun href =>
    if href = "/a".data ∨ href = "/a#y".data then
      some ⟨"http://e.com".data, "/a".data, "y".data⟩
    else none⟩

/-! ## Basic facts about `splitOnChar` and `joinSep` -/

theorem splitOnChar_ne_nil (sep : Char) (cs : Chars) : splitOnChar sep cs ≠ [] := by
  induction cs with
  | nil => simp [splitOnChar]
  | cons c cs ih =>
    simp only [splitOnChar, List.foldr_cons] at *
    cases h : List.foldr _ [[]] cs with
    | nil => exact absurd h ih
    | cons g gs =>
      by_cases hc : c = sep <;> simp [hc]

theorem splitOnChar_cons (sep c : Char) (cs : Chars) :
    splitOnChar sep (c :: cs) =
      if c = sep then [] :: splitOnChar sep cs
      else (c :: (splitOnChar sep cs).headI) :: (splitOnChar sep cs).tail := by
  simp only [splitOnChar, List.foldr_cons]
  cases h : List.foldr _ [[]] cs with
  | nil => exact absurd h (splitOnChar_ne_nil sep cs)
  | cons g gs => by_cases hc : c = sep <;> simp [hc]

theorem not_mem_of_mem_splitOnChar {sep : Char} {cs : Chars} {g : Chars}
    (hg : g ∈ splitOnChar sep cs) : sep ∉ g := by
  induction cs generalizing g with
  | nil => simp [splitOnChar] at hg; simp [hg]
  | cons c cs ih =>
    rw [splitOnChar_cons] at hg
    by_cases hc : c = sep <;> simp [hc] at hg
    · rcases hg with hg | hg
      · simp [hg]
      · exact ih hg
    · rcases hg with hg | hg
      · subst hg
        intro hmem
        rcases List.mem_cons.mp hmem with h | h
        · exact hc h.symm
        · have : (splitOnChar sep cs).headI ∈ splitOnChar sep cs := by
            cases h' : splitOnChar sep cs with
            | nil => exact absurd h' (splitOnChar_ne_nil sep cs)
            | cons x xs => simp
          exact ih this h
      · exact ih (List.mem_of_mem_tail hg)

theorem mem_of_mem_splitOnChar {sep : Char} {cs g : Chars} {c : Char}
    (hg : g ∈ splitOnChar sep cs) (hc : c ∈ g) : c ∈ cs := by
  induction cs generalizing g with
  | nil => simp [splitOnChar] at hg; subst hg; simp at hc
  | cons a cs ih =>
    rw [splitOnChar_cons] at hg
    by_cases ha : a = sep <;> simp [ha] at hg
    · rcases hg with hg | hg
      · subst hg; simp at hc
      · exact List.mem_cons_of_mem _ (ih hg hc)
    · rcases hg with hg | hg
      · subst hg
        rcases List.mem_cons.mp hc with h | h
        · simp [h]
        · refine List.mem_cons_of_mem _ (ih ?_ h)
          cases h' : splitOnChar sep cs with
          | nil => exact absurd h' (splitOnChar_ne_nil sep cs)
          | cons x xs => simp
      · exact List.mem_cons_of_mem _ (ih (List.mem_of_mem_tail hg) hc)

theorem splitOnChar_append_sep (sep : Char) (a b : Chars) :
    splitOnChar sep (a ++ sep :: b) = splitOnChar sep a ++ splitOnChar sep b := by
  induction a with
  | nil =>
    rw [List.nil_append, splitOnChar_cons, if_pos rfl]
    rfl
  | cons c a ih =>
    rw [List.cons_append, splitOnChar_cons, splitOnChar_cons, ih]
    by_cases hc : c = sep <;> simp [hc]
    cases h : splitOnChar sep a with
    | nil => exact absurd h (splitOnChar_ne_nil sep a)
    | cons g gs => simp

theorem splitOnChar_of_not_mem {sep : Char} {b : Chars} (h : sep ∉ b) :
    splitOnChar sep b = [b] := by
  induction b with
  | nil => simp [splitOnChar]
  | cons c b ih =>
    rw [splitOnChar_cons]
    have hc : c ≠ sep := fun hc => h (hc ▸ List.mem_cons_self c b)
    have hb : sep ∉ b := fun hb => h (List.mem_cons_of_mem _ hb)
    simp [hc, ih hb]

theorem splitOnChar_append_of_not_mem {sep : Char} (a : Chars) {b : Chars} (h : sep ∉ b) :
    splitOnChar sep (a ++ b) =
      (splitOnChar sep a).dropLast ++ [(splitOnChar sep a).getLastD [] ++ b] := by
  induction a with
  | nil =>
    rw [List.nil_append, splitOnChar_of_not_mem h]
    rfl
  | cons c a ih =>
    rw [List.cons_append, splitOnChar_cons, splitOnChar_cons, ih]
    obtain ⟨g, gs, h'⟩ := List.exists_cons_of_ne_nil (splitOnChar_ne_nil sep a)
    rw [h']
    by_cases hc : c = sep
    · rw [if_pos hc, if_pos hc]
      cases gs <;> simp
    · rw [if_neg hc, if_neg hc]
      cases gs <;> simp

theorem joinSep_chars {sep : Char} {L : List Chars} {c : Char}
    (hc : c ∈ joinSep sep L) : c = sep ∨ ∃ g ∈ L, c ∈ g := by
  induction L with
  | nil => simp [joinSep] at hc
  | cons g gs ih =>
    cases gs with
    | nil => simp [joinSep] at hc; exact Or.inr ⟨g, by simp, hc⟩
    | cons g' gs' =>
      simp only [joinSep, List.mem_append, List.mem_cons] at hc
      rcases hc with hc | hc | hc
      · exact Or.inr ⟨g, by simp, hc⟩
      · exact Or.inl hc
      · rcases ih hc with h | ⟨x, hx, hcx⟩
        · exact Or.inl h
        · exact Or.inr ⟨x, by simp [hx], hcx⟩

theorem splitOnChar_joinSep {sep : Char} {L : List Chars} (hL : L ≠ [])
    (hfree : ∀ g ∈ L, sep ∉ g) :
    splitOnChar sep (joinSep sep L) = L := by
  induction L with
  | nil => exact absurd rfl hL
  | cons g gs ih =>
    cases gs with
    | nil => exact splitOnChar_of_not_mem (hfree g (by simp))
    | cons g' gs' =>
      have : joinSep sep (g :: g' :: gs') = g ++ sep :: joinSep sep (g' :: gs') := rfl
      rw [this, splitOnChar_append_sep, splitOnChar_of_not_mem (hfree g (by simp)),
        ih (by simp) (fun x hx => hfree x (List.mem_cons_of_mem _ hx))]
      rfl

theorem joinSep_inj {sep : Char} {L₁ L₂ : List Chars} (hL₁ : L₁ ≠ []) (hL₂ : L₂ ≠ [])
    (h₁ : ∀ g ∈ L₁, sep ∉ g) (h₂ : ∀ g ∈ L₂, sep ∉ g)
    (heq : joinSep sep L₁ = joinSep sep L₂) : L₁ = L₂ := by
  have := splitOnChar_joinSep hL₁ h₁
  rw [heq, splitOnChar_joinSep hL₂ h₂] at this
  exact this.symm

theorem splitOnChar_filter_eq_nil {sep : Char} {cs : Chars}
    (h : (splitOnChar sep cs).filter (· ≠ []) = []) : ∀ c ∈ cs, c = sep := by
  induction cs with
  | nil => simp
  | cons c cs ih =>
    rw [splitOnChar_cons] at h
    by_cases hc : c = sep
    · rw [if_pos hc] at h
      have h' : (splitOnChar sep cs).filter (· ≠ []) = [] := by
        rw [List.filter_cons] at h
        simpa using h
      intro x hx
      rcases List.mem_cons.mp hx with rfl | hx
      · exact hc
      · exact ih h' x hx
    · rw [if_neg hc] at h
      exfalso
      have hmem : (c :: (splitOnChar sep cs).headI) ∈
          ((c :: (splitOnChar sep cs).headI) :: (splitOnChar sep cs).tail).filter (· ≠ []) :=
        List.mem_filter.mpr ⟨List.mem_cons_self _ _, by simp⟩
      rw [h] at hmem
      exact absurd hmem (List.not_mem_nil _)

theorem joinSep_ne_nil_of_concat {sep : Char} (L : List Chars) {x : Chars} (hx : x ≠ []) :
    joinSep sep (L ++ [x]) ≠ [] := by
  cases L with
  | nil => simpa [joinSep] using hx
  | cons g gs =>
    cases gs with
    | nil => simp [joinSep]
    | cons g' gs' => simp [joinSep]

theorem joinSep_getLast?_concat {sep : Char} (L : List Chars) {x : Chars} (hx : x ≠ []) :
    (joinSep sep (L ++ [x])).getLast? = x.getLast? := by
  induction L with
  | nil => simp [joinSep]
  | cons g gs ih =>
    have hstep : joinSep sep ((g :: gs) ++ [x]) = g ++ sep :: joinSep sep (gs ++ [x]) := by
      cases gs <;> rfl
    have h1 : (g ++ sep :: joinSep sep (gs ++ [x])).getLast? =
        (sep :: joinSep sep (gs ++ [x])).getLast? :=
      List.getLast?_append_of_ne_nil g (by simp)
    rw [hstep, h1, ← ih]
    cases hj : joinSep sep (gs ++ [x]) with
    | nil => exact absurd hj (joinSep_ne_nil_of_concat gs hx)
    | cons y ys => simp

/-! ## Facts about `normStep`/`normSegs` (Node `normalizeString`) -/

theorem foldl_normStep_plain {a : Bool} {segs : List Chars}
    (h : ∀ g ∈ segs, g ≠ ['.'] ∧ g ≠ ['.', '.']) (st : List Chars) :
    segs.foldl (normStep a) st = st ++ segs.filter (· ≠ []) := by
  induction segs generalizing st with
  | nil => simp
  | cons s segs ih =>
    have hs := h s (List.mem_cons_self _ _)
    have hrest : ∀ g ∈ segs, g ≠ ['.'] ∧ g ≠ ['.', '.'] :=
      fun g hg => h g (List.mem_cons_of_mem _ hg)
    rw [List.foldl_cons, ih hrest]
    by_cases hnil : s = []
    · simp [normStep, hnil]
    · have hstep : normStep a st s = st ++ [s] := by
        simp [normStep, hnil, hs.1, hs.2]
      rw [hstep, List.filter_cons]
      simp [hnil]

theorem mem_normStep {a : Bool} {st : List Chars} {s g : Chars}
    (hg : g ∈ normStep a st s) : g ∈ st ∨ g = s ∨ g = ['.', '.'] := by
  unfold normStep at hg
  by_cases h1 : s = [] ∨ s = ['.']
  · rw [if_pos h1] at hg
    exact Or.inl hg
  · rw [if_neg h1] at hg
    by_cases h2 : s = ['.', '.']
    · rw [if_pos h2] at hg
      by_cases h3 : st ≠ [] ∧ st.getLast? ≠ some ['.', '.']
      · rw [if_pos h3] at hg
        exact Or.inl (List.mem_of_mem_dropLast hg)
      · rw [if_neg h3] at hg
        by_cases h4 : a = true
        · rw [if_pos h4] at hg
          rcases List.mem_append.mp hg with h | h
          · exact Or.inl h
          · simp at h; exact Or.inr (Or.inr (h.trans h2))
        · rw [if_neg h4] at hg
          exact Or.inl hg
    · rw [if_neg h2] at hg
      rcases List.mem_append.mp hg with h | h
      · exact Or.inl h
      · simp at h; exact Or.inr (Or.inl h)

theorem mem_foldl_normStep {a : Bool} {segs : List Chars} {st : List Chars} {g : Chars}
    (hg : g ∈ segs.foldl (normStep a) st) : g ∈ st ∨ g ∈ segs ∨ g = ['.', '.'] := by
  induction segs generalizing st with
  | nil => exact Or.inl hg
  | cons s segs ih =>
    rw [List.foldl_cons] at hg
    rcases ih hg with h | h | h
    · rcases mem_normStep h with h' | h' | h'
      · exact Or.inl h'
      · exact Or.inr (Or.inl (h' ▸ List.mem_cons_self _ _))
      · exact Or.inr (Or.inr h')
    · exact Or.inr (Or.inl (List.mem_cons_of_mem _ h))
    · exact Or.inr (Or.inr h)

theorem ne_nil_of_mem_foldl_normStep {a : Bool} {segs : List Chars} {st : List Chars}
    (hst : ∀ g ∈ st, g ≠ []) {g : Chars}
    (hg : g ∈ segs.foldl (normStep a) st) : g ≠ [] := by
  induction segs generalizing st with
  | nil => exact hst g hg
  | cons s segs ih =>
    rw [List.foldl_cons] at hg
    refine ih ?_ hg
    intro x hx
    rcases mem_normStep hx with h | h | h
    · exact hst x h
    · subst h
      intro hxnil
      subst hxnil
      simp [normStep] at hx
      exact absurd hx (fun h => hst [] h rfl)
    · subst h; simp

/-! ## Closed forms of `pathNormalize` -/

theorem pathNormalize_abs {s : Chars} (habs : s.head? = some '/')
    (hlast : s.getLast? ≠ some '/')
    (hne : normSegs false (splitOnChar '/' s) ≠ []) :
    pathNormalize s = '/' :: joinSep '/' (normSegs false (splitOnChar '/' s)) := by
  unfold pathNormalize
  simp only [habs, hlast]
  simp [if_neg hne, hlast]

theorem pathNormalize_rel {s : Chars} (habs : s.head? ≠ some '/')
    (hlast : s.getLast? ≠ some '/')
    (hne : normSegs true (splitOnChar '/' s) ≠ []) :
    pathNormalize s = joinSep '/' (normSegs true (splitOnChar '/' s)) := by
  unfold pathNormalize
  simp only [habs, hlast]
  simp [if_neg hne, habs, hlast]

/-! ## Facts about `normPathname` under the URL-class pathname guarantees -/

theorem splitHead_of_not_mem {c : Char} {s : Chars} (h : c ∉ s) : splitHead c s = s := by
  induction s with
  | nil => rfl
  | cons x xs ih =>
    have hx : ¬(x = c) := fun hx => h (hx ▸ List.mem_cons_self x xs)
    have hxs : c ∉ xs := fun hm => h (List.mem_cons_of_mem _ hm)
    simp only [splitHead, List.takeWhile_cons] at *
    simp [hx]
    exact fun y hy hyc => hxs (hyc ▸ hy)

theorem validPathname_spec {p : Chars} (h : ValidPathname p = true) :
    p.head? = some '/' ∧ (∀ c ∈ p, c ≠ '?' ∧ c ≠ '#') ∧
      ∀ g ∈ splitOnChar '/' p, g ≠ ['.'] ∧ g ≠ ['.', '.'] := by
  simp only [ValidPathname, Bool.and_eq_true, List.all_eq_true, decide_eq_true_eq,
    Bool.not_eq_true', Bool.or_eq_false_iff, decide_eq_false_iff_not] at h
  exact ⟨h.1.1, fun c hc => (h.1.2 c hc), fun g hg => (h.2 g hg)⟩

theorem cleanDir_spec {d : Chars} (h : CleanDir d = true) :
    ∀ c ∈ d, c ≠ '?' ∧ c ≠ '#' := by
  simp only [CleanDir, List.all_eq_true, Bool.not_eq_true', Bool.or_eq_false_iff,
    decide_eq_false_iff_not] at h
  exact fun c hc => h c hc

theorem ne_nil_of_getLast? {s : Chars} {c : Char} (h : s.getLast? = some c) : s ≠ [] := by
  intro hnil
  rw [hnil] at h
  exact Option.noConfusion h

theorem ne_nil_of_head? {s : Chars} {c : Char} (h : s.head? = some c) : s ≠ [] := by
  intro hnil
  rw [hnil] at h
  exact Option.noConfusion h

theorem normPathname_trailing {p : Chars} (hvp : ValidPathname p = true)
    (hl : p.getLast? = some '/') :
    normPathname p =
      '/' :: joinSep '/' ((splitOnChar '/' p).filter (· ≠ []) ++ ["index.html".data]) := by
  obtain ⟨hhead, -, hsegs⟩ := validPathname_spec hvp
  have hpne : p ≠ [] := ne_nil_of_getLast? hl
  have hbne : ("index.html".data : Chars) ≠ [] := by decide
  have hjoined : pathJoin p "index.html".data =
      pathNormalize (p ++ '/' :: "index.html".data) := by
    unfold pathJoin
    rw [if_neg hpne, if_neg hbne, if_neg (by simp)]
  have hfree : '/' ∉ ("index.html".data : Chars) := by decide
  have hsplitb : splitOnChar '/' ("index.html".data : Chars) = ["index.html".data] :=
    splitOnChar_of_not_mem hfree
  have hsplit : splitOnChar '/' (p ++ '/' :: "index.html".data) =
      splitOnChar '/' p ++ ["index.html".data] := by
    rw [splitOnChar_append_sep, hsplitb]
  have hplain : ∀ g ∈ splitOnChar '/' p ++ ["index.html".data],
      g ≠ ['.'] ∧ g ≠ ['.', '.'] := by
    intro g hg
    rcases List.mem_append.mp hg with h | h
    · exact hsegs g h
    · simp at h; subst h; constructor <;> decide
  have hnorm : normSegs false (splitOnChar '/' (p ++ '/' :: "index.html".data)) =
      (splitOnChar '/' p).filter (· ≠ []) ++ ["index.html".data] := by
    rw [hsplit]
    unfold normSegs
    rw [foldl_normStep_plain hplain, List.filter_append]
    simp
  rw [normPathname, if_pos hl, hjoined]
  have habs : (p ++ '/' :: "index.html".data).head? = some '/' := by
    rw [List.head?_append]
    cases hp : p.head? with
    | none => exact absurd (List.head?_eq_none_iff.mp hp) hpne
    | some c => rw [hhead] at hp; cases hp; rfl
  have hlast : (p ++ '/' :: "index.html".data).getLast? = some 'l' := by
    rw [List.getLast?_append_of_ne_nil p (by simp)]
    decide
  have hne : normSegs false (splitOnChar '/' (p ++ '/' :: "index.html".data)) ≠ [] := by
    rw [hnorm]; simp
  rw [pathNormalize_abs habs (by rw [hlast]; decide) hne, hnorm]

theorem splitOnChar_filter_ne_nil {sep : Char} {cs : Chars} (hne : cs ≠ [])
    (hlast : cs.getLast? ≠ some sep) : (splitOnChar sep cs).filter (· ≠ []) ≠ [] := by
  intro h
  have hall := splitOnChar_filter_eq_nil h
  obtain ⟨c, hc⟩ : ∃ c, cs.getLast? = some c := by
    cases h' : cs.getLast? with
    | none => exact absurd (List.getLast?_eq_none_iff.mp h') hne
    | some c => exact ⟨c, rfl⟩
  have hcs : c = sep := hall c (List.mem_of_getLast?_eq_some hc)
  exact hlast (hcs ▸ hc)

theorem normPathname_ne_nil {p : Chars} (hvp : ValidPathname p = true) :
    normPathname p ≠ [] := by
  by_cases hl : p.getLast? = some '/'
  · rw [normPathname_trailing hvp hl]; simp
  · obtain ⟨hhead, -, -⟩ := validPathname_spec hvp
    have hpne : p ≠ [] := ne_nil_of_head? hhead
    rw [normPathname, if_neg hl]
    by_cases he : hasExt p = true
    · simpa [he] using hpne
    · simp [he, hpne]

theorem normPathname_head {p : Chars} (hvp : ValidPathname p = true) :
    (normPathname p).head? = some '/' := by
  obtain ⟨hhead, -, -⟩ := validPathname_spec hvp
  by_cases hl : p.getLast? = some '/'
  · rw [normPathname_trailing hvp hl]; rfl
  · rw [normPathname, if_neg hl]
    by_cases he : hasExt p = true
    · simp [he, hhead]
    · simp [he, List.head?_append, hhead]

theorem normPathname_getLast {p : Chars} (hvp : ValidPathname p = true) :
    (normPathname p).getLast? ≠ some '/' := by
  by_cases hl : p.getLast? = some '/'
  · rw [normPathname_trailing hvp hl]
    have hbne : ("index.html".data : Chars) ≠ [] := by decide
    have hJ : (joinSep '/' ((splitOnChar '/' p).filter (· ≠ []) ++
        ["index.html".data])).getLast? = some 'l' := by
      rw [joinSep_getLast?_concat ((splitOnChar '/' p).filter (· ≠ [])) hbne]
      decide
    have hcons : ('/' :: joinSep '/' ((splitOnChar '/' p).filter (· ≠ []) ++
        ["index.html".data]) : Chars) = ['/'] ++ joinSep '/'
        ((splitOnChar '/' p).filter (· ≠ []) ++ ["index.html".data]) := rfl
    rw [hcons, List.getLast?_append_of_ne_nil ['/']
      (joinSep_ne_nil_of_concat _ hbne), hJ]
    decide
  · rw [normPathname, if_neg hl]
    by_cases he : hasExt p = true
    · simpa [he] using hl
    · have hb : (".html".data : Chars) ≠ [] := by decide
      rw [if_neg he, List.getLast?_append_of_ne_nil p hb]
      decide

theorem normPathname_segs_plain {p : Chars} (hvp : ValidPathname p = true) :
    ∀ g ∈ splitOnChar '/' (normPathname p), g ≠ ['.'] ∧ g ≠ ['.', '.'] := by
  obtain ⟨-, -, hsegs⟩ := validPathname_spec hvp
  by_cases hl : p.getLast? = some '/'
  · rw [normPathname_trailing hvp hl]
    have hbne : ("index.html".data : Chars) ≠ [] := by decide
    have hfreeAll : ∀ g ∈ (splitOnChar '/' p).filter (· ≠ []) ++ ["index.html".data],
        '/' ∉ g := by
      intro g hg
      rcases List.mem_append.mp hg with h | h
      · exact not_mem_of_mem_splitOnChar (List.mem_of_mem_filter h)
      · simp at h; subst h; decide
    rw [splitOnChar_cons, if_pos rfl,
      splitOnChar_joinSep (by simp) hfreeAll]
    intro g hg
    rcases List.mem_cons.mp hg with rfl | hg
    · constructor <;> decide
    · rcases List.mem_append.mp hg with h | h
      · exact hsegs g (List.mem_of_mem_filter h)
      · simp at h; subst h; constructor <;> decide
  · rw [normPathname, if_neg hl]
    by_cases he : hasExt p = true
    · simpa [he] using hsegs
    · rw [if_neg he]
      have hfree : '/' ∉ (".html".data : Chars) := by decide
      rw [splitOnChar_append_of_not_mem p hfree]
      intro g hg
      rcases List.mem_append.mp hg with h | h
      · exact hsegs g (List.mem_of_mem_dropLast h)
      · simp at h
        subst h
        constructor <;>
          · intro hcontr
            have := congrArg List.length hcontr
            simp [List.length_append] at this

theorem normPathname_chars {p : Chars} (hvp : ValidPathname p = true) :
    ∀ c ∈ normPathname p, c ∈ p ∨ c ∈ ("/index.html".data : Chars) := by
  by_cases hl : p.getLast? = some '/'
  · rw [normPathname_trailing hvp hl]
    intro c hc
    rcases List.mem_cons.mp hc with rfl | hc
    · right; decide
    · rcases joinSep_chars hc with rfl | ⟨g, hg, hcg⟩
      · right; decide
      · rcases List.mem_append.mp hg with h | h
        · exact Or.inl (mem_of_mem_splitOnChar (List.mem_of_mem_filter h) hcg)
        · simp at h
          subst h
          right
          have hsub : ∀ x ∈ ("index.html".data : Chars),
              x ∈ ("/index.html".data : Chars) := by decide
          exact hsub c hcg
  · rw [normPathname, if_neg hl]
    by_cases he : hasExt p = true
    · simp [he]
      intro c hc
      exact Or.inl hc
    · rw [if_neg he]
      intro c hc
      rcases List.mem_append.mp hc with h | h
      · exact Or.inl h
      · right
        have hsub : ∀ x ∈ (".html".data : Chars),
            x ∈ ("/index.html".data : Chars) := by decide
        exact hsub c h

/-! ## Characterizing `urlToLocalPath` on same-origin targets -/

theorem pathJoin_normPathname (outDir : Chars) {p : Chars}
    (hvp : ValidPathname p = true) :
    pathJoin outDir (normPathname p) = joinedPath outDir (sameOriginSegs p) := by
  have hnp_ne := normPathname_ne_nil hvp
  have hnp_head := normPathname_head hvp
  have hnp_last := normPathname_getLast hvp
  have hplain := normPathname_segs_plain hvp
  have hP_ne : sameOriginSegs p ≠ [] := splitOnChar_filter_ne_nil hnp_ne hnp_last
  have hfilter : normSegs false (splitOnChar '/' (normPathname p)) = sameOriginSegs p := by
    unfold normSegs sameOriginSegs
    rw [foldl_normStep_plain hplain]
    rfl
  by_cases hout : outDir = []
  · subst hout
    have hjoin : pathJoin [] (normPathname p) = pathNormalize (normPathname p) := by
      unfold pathJoin
      simp [hnp_ne]
    rw [hjoin, pathNormalize_abs hnp_head hnp_last (by rw [hfilter]; exact hP_ne), hfilter]
    have hstack : dirStack ([] : Chars) = [] := by decide
    rw [joinedPath, if_pos (by decide), hstack]
    rfl
  · have hjoined : pathJoin outDir (normPathname p) =
        pathNormalize (outDir ++ '/' :: normPathname p) := by
      unfold pathJoin
      rw [if_neg hout, if_neg hnp_ne, if_neg (by simp [hout])]
    obtain ⟨d, ds, hds⟩ := List.exists_cons_of_ne_nil hout
    have hhead : (outDir ++ '/' :: normPathname p).head? = outDir.head? := by
      rw [hds]; rfl
    have hlast : (outDir ++ '/' :: normPathname p).getLast? = (normPathname p).getLast? := by
      rw [List.getLast?_append_of_ne_nil outDir (by simp)]
      have h' : ('/' :: normPathname p : Chars) = ['/'] ++ normPathname p := rfl
      rw [h', List.getLast?_append_of_ne_nil ['/'] hnp_ne]
    have hsplit : splitOnChar '/' (outDir ++ '/' :: normPathname p) =
        splitOnChar '/' outDir ++ splitOnChar '/' (normPathname p) :=
      splitOnChar_append_sep '/' _ _
    have hsegs : ∀ a : Bool, normSegs a (splitOnChar '/' (outDir ++ '/' :: normPathname p)) =
        normSegs a (splitOnChar '/' outDir) ++ sameOriginSegs p := by
      intro a
      unfold normSegs
      rw [hsplit, List.foldl_append, foldl_normStep_plain hplain]
      rfl
    by_cases habs : outDir.head? = some '/'
    · have hne : normSegs false (splitOnChar '/' (outDir ++ '/' :: normPathname p)) ≠ [] := by
        rw [hsegs]; simp [hP_ne]
      rw [hjoined, pathNormalize_abs (by rw [hhead]; exact habs)
        (by rw [hlast]; exact hnp_last) hne, hsegs]
      rw [joinedPath, dirStack, dirIsAbs, if_neg hout, if_pos (by simp [habs])]
      simp [habs]
    · have hne : normSegs true (splitOnChar '/' (outDir ++ '/' :: normPathname p)) ≠ [] := by
        rw [hsegs]; simp [hP_ne]
      rw [hjoined, pathNormalize_rel (by rw [hhead]; exact habs)
        (by rw [hlast]; exact hnp_last) hne, hsegs]
      rw [joinedPath, dirStack, dirIsAbs, if_neg hout, if_neg (by simp [habs])]
      simp [habs]

theorem mem_dirStack {outDir : Chars} {g : Chars} (hg : g ∈ dirStack outDir) :
    g ≠ [] ∧ '/' ∉ g ∧ (g = ['.', '.'] ∨ g ∈ splitOnChar '/' outDir) := by
  unfold dirStack normSegs at hg
  refine ⟨ne_nil_of_mem_foldl_normStep (by simp) hg, ?_, ?_⟩
  · rcases mem_foldl_normStep hg with h | h | h
    · simp at h
    · exact not_mem_of_mem_splitOnChar h
    · subst h; decide
  · rcases mem_foldl_normStep hg with h | h | h
    · simp at h
    · exact Or.inr h
    · exact Or.inl h

theorem sameOriginSegs_elem {p : Chars} {g : Chars} (hg : g ∈ sameOriginSegs p) :
    g ≠ [] ∧ '/' ∉ g := by
  refine ⟨?_, not_mem_of_mem_splitOnChar (List.mem_of_mem_filter hg)⟩
  have h' := List.of_mem_filter hg
  simpa using h'

theorem joinSep_ne_nil {sep : Char} {L : List Chars} (hL : L ≠ [])
    (h : ∀ g ∈ L, g ≠ []) : joinSep sep L ≠ [] := by
  cases L with
  | nil => exact absurd rfl hL
  | cons g gs =>
    cases gs with
    | nil => exact h g (by simp)
    | cons g' gs' =>
      have hstep : joinSep sep (g :: g' :: gs') = g ++ sep :: joinSep sep (g' :: gs') := rfl
      rw [hstep]
      simp

theorem not_mem_joinedPath {outDir : Chars} (hd : CleanDir outDir = true) {p : Chars}
    (hvp : ValidPathname p = true) {ch : Char} (hch : ch = '?' ∨ ch = '#') :
    ch ∉ joinedPath outDir (sameOriginSegs p) := by
  have hchars := normPathname_chars hvp
  have hdchars := cleanDir_spec hd
  have hch1 : ch ≠ '/' := by rcases hch with rfl | rfl <;> decide
  have hch2 : ch ≠ '.' := by rcases hch with rfl | rfl <;> decide
  have hch3 : ch ∉ ("/index.html".data : Chars) := by
    rcases hch with rfl | rfl <;> decide
  have hmain : ∀ g ∈ dirStack outDir ++ sameOriginSegs p, ch ∉ g := by
    intro g hg hcg
    rcases List.mem_append.mp hg with h | h
    · rcases (mem_dirStack h).2.2 with h' | h'
      · subst h'
        rcases List.mem_cons.mp hcg with h'' | h''
        · exact hch2 h''
        · simp at h''; exact hch2 h''
      · have hmem := mem_of_mem_splitOnChar h' hcg
        rcases hch with rfl | rfl
        · exact (hdchars _ hmem).1 rfl
        · exact (hdchars _ hmem).2 rfl
    · have hnp : ch ∈ normPathname p :=
        mem_of_mem_splitOnChar (List.mem_of_mem_filter h) hcg
      rcases hchars ch hnp with h' | h'
      · obtain ⟨-, hpc, -⟩ := validPathname_spec hvp
        rcases hch with rfl | rfl
        · exact (hpc _ h').1 rfl
        · exact (hpc _ h').2 rfl
      · exact hch3 h'
  intro hmem
  unfold joinedPath at hmem
  by_cases hia : dirIsAbs outDir = true
  · rw [if_pos hia] at hmem
    rcases List.mem_cons.mp hmem with h | h
    · exact hch1 h
    · rcases joinSep_chars h with h' | ⟨g, hg, hcg⟩
      · exact hch1 h'
      · exact hmain g hg hcg
  · rw [if_neg hia] at hmem
    rcases joinSep_chars hmem with h' | ⟨g, hg, hcg⟩
    · exact hch1 h'
    · exact hmain g hg hcg

theorem joinedPath_inj {outDir : Chars} {P Q : List Chars}
    (hP : ∀ g ∈ P, g ≠ [] ∧ '/' ∉ g) (hQ : ∀ g ∈ Q, g ≠ [] ∧ '/' ∉ g)
    (hne : P ≠ Q) : joinedPath outDir P ≠ joinedPath outDir Q := by
  have helem : ∀ g ∈ dirStack outDir ++ P, g ≠ [] ∧ '/' ∉ g := by
    intro g hg
    rcases List.mem_append.mp hg with h | h
    · exact ⟨(mem_dirStack h).1, (mem_dirStack h).2.1⟩
    · exact hP g h
  have helem' : ∀ g ∈ dirStack outDir ++ Q, g ≠ [] ∧ '/' ∉ g := by
    intro g hg
    rcases List.mem_append.mp hg with h | h
    · exact ⟨(mem_dirStack h).1, (mem_dirStack h).2.1⟩
    · exact hQ g h
  have hlists : dirStack outDir ++ P ≠ dirStack outDir ++ Q := by
    intro h
    exact hne (List.append_cancel_left h)
  have hjoin : joinSep '/' (dirStack outDir ++ P) ≠ joinSep '/' (dirStack outDir ++ Q) := by
    intro hj
    by_cases h1 : dirStack outDir ++ P = []
    · by_cases h2 : dirStack outDir ++ Q = []
      · exact hlists (h1.trans h2.symm)
      · rw [h1] at hj
        exact joinSep_ne_nil h2 (fun g hg => (helem' g hg).1) hj.symm
    · by_cases h2 : dirStack outDir ++ Q = []
      · rw [h2] at hj
        exact joinSep_ne_nil h1 (fun g hg => (helem g hg).1) hj
      · exact hlists (joinSep_inj h1 h2 (fun g hg => (helem g hg).2)
          (fun g hg => (helem' g hg).2) hj)
  unfold joinedPath
  by_cases hia : dirIsAbs outDir = true
  · rw [if_pos hia, if_pos hia]
    intro h
    injection h with h1 h2
    exact hjoin h2
  · rw [if_neg hia, if_neg hia]
    exact hjoin

theorem urlToLocalPath_sameOrigin (root t : Url) (outDir : Chars)
    (ho : t.origin = root.origin) (hvp : ValidPathname t.pathname = true)
    (hd : CleanDir outDir = true) :
    urlToLocalPath root t outDir none = joinedPath outDir (sameOriginSegs t.pathname) := by
  have hioff : ¬(t.origin ≠ root.origin) := fun h => h ho
  have hraw : urlToLocalPath root t outDir none =
      splitHead '#' (splitHead '?' (pathJoin outDir (normPathname t.pathname))) := by
    rw [urlToLocalPath, if_neg hioff]
    rfl
  rw [hraw, pathJoin_normPathname outDir hvp,
    splitHead_of_not_mem (not_mem_joinedPath hd hvp (Or.inl rfl)),
    splitHead_of_not_mem (not_mem_joinedPath hd hvp (Or.inr rfl))]

/-- C1 (amended): for two same-origin target URLs whose pathnames still
differ after the §3 normalization (trailing slash to `index.html`,
extensionless to `.html`) AND after collapsing of repeated slashes
(`sameOriginSegs`), and an output directory free of `?`/`#`,
`urlToLocalPath` maps them to different local paths. -/
theorem urlToLocalPath_no_collision (root A B : Url) (outDir : Chars)
    (hA : A.origin = root.origin) (hB : B.origin = root.origin)
    (hvA : ValidPathname A.pathname = true) (hvB : ValidPathname B.pathname = true)
    (hd : CleanDir outDir = true)
    (hne : sameOriginSegs A.pathname ≠ sameOriginSegs B.pathname) :
    urlToLocalPath root A outDir none ≠ urlToLocalPath root B outDir none := by
  rw [urlToLocalPath_sameOrigin root A outDir hA hvA hd,
    urlToLocalPath_sameOrigin root B outDir hB hvB hd]
  exact joinedPath_inj (fun g hg => sameOriginSegs_elem hg)
    (fun g hg => sameOriginSegs_elem hg) hne

/-- C1 witness: concrete instantiation of `urlToLocalPath_no_collision`
at pathnames `/x` and `/y/` under root `https://e.com` with output
directory `out`. -/
theorem urlToLocalPath_no_collision_witness :
    urlToLocalPath (Url.mk "https://e.com".data "e.com".data "/".data)
        (Url.mk "https://e.com".data "e.com".data "/x".data) "out".data none ≠
      urlToLocalPath (Url.mk "https://e.com".data "e.com".data "/".data)
        (Url.mk "https://e.com".data "e.com".data "/y/".data) "out".data none :=
  urlToLocalPath_no_collision
    (Url.mk "https://e.com".data "e.com".data "/".data)
    (Url.mk "https://e.com".data "e.com".data "/x".data)
    (Url.mk "https://e.com".data "e.com".data "/y/".data)
    "out".data rfl rfl (by decide) (by decide) (by decide) (by decide)

/-- C1 counterexample: the claim as stated is false. The distinct
same-origin pathnames `/a//b` and `/a/b` still differ after the
normalization the claim describes (`specNormalizedPathname`), yet
`urlToLocalPath` maps both to the same local path `out/a/b.html`,
because Node `path.join` collapses the repeated slash. -/
theorem urlToLocalPath_collision_counterexample :
    (Url.mk "https://example.com".data "example.com".data "/a//b".data).pathname ≠
      (Url.mk "https://example.com".data "example.com".data "/a/b".data).pathname ∧
    specNormalizedPathname "/a//b".data ≠ specNormalizedPathname "/a/b".data ∧
    urlToLocalPath (Url.mk "https://example.com".data "example.com".data "/".data)
        (Url.mk "https://example.com".data "example.com".data "/a//b".data) "out".data none =
      urlToLocalPath (Url.mk "https://example.com".data "example.com".data "/".data)
        (Url.mk "https://example.com".data "example.com".data "/a/b".data) "out".data none :=
  ⟨by decide, by decide, by decide⟩

/-! ## Crawl-engine invariants (C2, C3, C8) -/

theorem processPage_mem_seen (env : CrawlEnv) (opts : CrawlOptions) (st : CrawlState)
    (u : Chars) (d : Nat) (h : canonKey u ∈ st.seen) :
    processPage env opts st u d = (st, []) := by
  unfold processPage
  simp [h]

theorem processPage_fst (env : CrawlEnv) (opts : CrawlOptions) (st : CrawlState)
    (u : Chars) (d : Nat) :
    (processPage env opts st u d).1 =
      if canonKey u ∈ st.seen then st
      else { st with seen := canonKey u :: st.seen,
                     fetchLog := st.fetchLog ++ [(canonKey u, d)] } := by
  unfold processPage
  by_cases h : canonKey u ∈ st.seen
  · simp [h]
  · simp only [h, if_false, ite_false]
    cases hf : env.fetch (canonKey u) with
    | none => rfl
    | some page =>
      by_cases h1 : isHtmlCT page.contentType
      · by_cases h2 : page.rewriteOk
        · by_cases h3 : d < opts.maxDepth <;> simp [h1, h2, h3]
        · simp [h1, h2]
      · simp [h1]

theorem processPage_snd_depth (env : CrawlEnv) (opts : CrawlOptions) (st : CrawlState)
    (u : Chars) (d : Nat) :
    ∀ it ∈ (processPage env opts st u d).2, it.2 = d + 1 ∧ d < opts.maxDepth := by
  unfold processPage
  by_cases h : canonKey u ∈ st.seen
  · simp [h]
  · simp only [h, if_false, ite_false]
    cases hf : env.fetch (canonKey u) with
    | none => simp
    | some page =>
      by_cases h1 : isHtmlCT page.contentType
      · by_cases h2 : page.rewriteOk
        · by_cases h3 : d < opts.maxDepth
          · intro it hit
            simp only [h1, h2, h3, if_true, ite_true, Bool.not_true,
              Bool.false_eq_true, if_false, ite_false, List.mem_map] at hit
            obtain ⟨l, -, hl⟩ := hit
            exact ⟨by rw [← hl], h3⟩
          · simp [h1, h2, h3]
        · simp [h1, h2]
      · simp [h1]

theorem processPage_inv (env : CrawlEnv) (opts : CrawlOptions) (st : CrawlState)
    (u : Chars) (d : Nat)
    (h1 : (st.fetchLog.map Prod.fst).Nodup)
    (h2 : ∀ k ∈ st.fetchLog.map Prod.fst, k ∈ st.seen) :
    ((processPage env opts st u d).1.fetchLog.map Prod.fst).Nodup ∧
    (∀ k ∈ (processPage env opts st u d).1.fetchLog.map Prod.fst,
      k ∈ (processPage env opts st u d).1.seen) ∧
    (∀ k ∈ st.seen, k ∈ (processPage env opts st u d).1.seen) := by
  rw [processPage_fst]
  by_cases h : canonKey u ∈ st.seen
  · simp only [h, if_true, ite_true]
    exact ⟨h1, h2, fun k hk => hk⟩
  · simp only [h, if_false, ite_false]
    refine ⟨?_, ?_, ?_⟩
    · rw [List.map_append]
      rw [List.nodup_append]
      refine ⟨h1, by simp, ?_⟩
      intro k hk
      simp only [List.map_cons, List.map_nil, List.mem_cons, List.not_mem_nil,
        or_false]
      intro hkey
      exact h (hkey ▸ h2 k hk)
    · intro k hk
      rw [List.map_append] at hk
      rcases List.mem_append.mp hk with hk | hk
      · exact List.mem_cons_of_mem _ (h2 k hk)
      · simp only [List.map_cons, List.map_nil, List.mem_cons, List.not_mem_nil,
          or_false] at hk
        simp [hk]
    · intro k hk
      exact List.mem_cons_of_mem _ hk

theorem processBatch_inv (env : CrawlEnv) (opts : CrawlOptions) :
    ∀ (batch : List (Chars × Nat)) (st : CrawlState),
    (st.fetchLog.map Prod.fst).Nodup →
    (∀ k ∈ st.fetchLog.map Prod.fst, k ∈ st.seen) →
    ((processBatch env opts st batch).1.fetchLog.map Prod.fst).Nodup ∧
    (∀ k ∈ (processBatch env opts st batch).1.fetchLog.map Prod.fst,
      k ∈ (processBatch env opts st batch).1.seen) ∧
    (∀ k ∈ st.seen, k ∈ (processBatch env opts st batch).1.seen) := by
  intro batch
  induction batch with
  | nil => intro st h1 h2; exact ⟨h1, h2, fun k hk => hk⟩
  | cons item rest ih =>
    intro st h1 h2
    obtain ⟨u, d⟩ := item
    have hp := processPage_inv env opts st u d h1 h2
    have hr := ih (processPage env opts st u d).1 hp.1 hp.2.1
    exact ⟨hr.1, hr.2.1, fun k hk => hr.2.2 k (hp.2.2 k hk)⟩

theorem crawlLoop_inv (env : CrawlEnv) (opts : CrawlOptions) :
    ∀ (fuel : Nat) (frontier : List (Chars × Nat)) (st : CrawlState),
    (st.fetchLog.map Prod.fst).Nodup →
    (∀ k ∈ st.fetchLog.map Prod.fst, k ∈ st.seen) →
    ((crawlLoop env opts fuel frontier st).fetchLog.map Prod.fst).Nodup := by
  intro fuel
  induction fuel with
  | zero => intro frontier st h1 _; exact h1
  | succ fuel ih =>
    intro frontier st h1 h2
    cases frontier with
    | nil => exact h1
    | cons item rest =>
      show ((crawlLoop env opts fuel _ _).fetchLog.map Prod.fst).Nodup
      have hb := processBatch_inv env opts ((item :: rest).take opts.concurrency)
        { st with batchLog := st.batchLog ++ [((item :: rest).take opts.concurrency).length] }
        h1 h2
      exact ih _ _ hb.1 hb.2.1

theorem filter_fst_length_le_one {α β : Type} [DecidableEq α] {l : List (α × β)} {key : α}
    (h : (l.map Prod.fst).Nodup) :
    (l.filter (fun kd => kd.1 = key)).length ≤ 1 := by
  induction l with
  | nil => simp
  | cons x l ih =>
    rw [List.map_cons, List.nodup_cons] at h
    by_cases hx : x.1 = key
    · rw [List.filter_cons, if_pos (by simp [hx])]
      have hnil : l.filter (fun kd => kd.1 = key) = [] := by
        rw [List.filter_eq_nil_iff]
        intro a ha
        simp only [decide_eq_true_eq]
        intro hak
        exact h.1 (by
          rw [hx, ← hak]
          exact List.mem_map_of_mem Prod.fst ha)
      rw [hnil]
      simp
    · rw [List.filter_cons, if_neg (by simp [hx])]
      exact ih h.2

/-- C2: across one run of `crawl`, the page fetch is invoked at most
once per canonical URL: `processPage` returns immediately when the key
is already in the visited set, otherwise it inserts the key before
fetching, so the canonical keys in the fetch log never repeat. -/
theorem crawl_fetch_once (env : CrawlEnv) (opts : CrawlOptions) (startUrl : Chars)
    (fuel : Nat) (key : Chars) :
    (∀ st u d, canonKey u ∈ st.seen → processPage env opts st u d = (st, [])) ∧
    ((crawl env opts startUrl fuel).fetchLog.map Prod.fst).Nodup ∧
    ((crawl env opts startUrl fuel).fetchLog.filter
      (fun kd => kd.1 = key)).length ≤ 1 := by
  have hnodup : ((crawl env opts startUrl fuel).fetchLog.map Prod.fst).Nodup := by
    unfold crawl
    cases hp : env.parseOrigin startUrl with
    | none => simp
    | some o => exact crawlLoop_inv env opts fuel _ ⟨[], [], []⟩ (by simp) (by simp)
  exact ⟨fun st u d h => processPage_mem_seen env opts st u d h, hnodup,
    filter_fst_length_le_one hnodup⟩

theorem processBatch_depth (env : CrawlEnv) (opts : CrawlOptions) :
    ∀ (batch : List (Chars × Nat)) (st : CrawlState),
    (∀ it ∈ batch, it.2 ≤ opts.maxDepth) →
    (∀ kd ∈ st.fetchLog, kd.2 ≤ opts.maxDepth) →
    (∀ kd ∈ (processBatch env opts st batch).1.fetchLog, kd.2 ≤ opts.maxDepth) ∧
    (∀ it ∈ (processBatch env opts st batch).2, it.2 ≤ opts.maxDepth) := by
  intro batch
  induction batch with
  | nil => intro st _ h2; exact ⟨h2, by simp [processBatch]⟩
  | cons item rest ih =>
    intro st hb h2
    obtain ⟨u, d⟩ := item
    have hd : d ≤ opts.maxDepth := hb (u, d) (List.mem_cons_self _ _)
    have hlog : ∀ kd ∈ (processPage env opts st u d).1.fetchLog,
        kd.2 ≤ opts.maxDepth := by
      rw [processPage_fst]
      by_cases h : canonKey u ∈ st.seen
      · simp only [h, if_true, ite_true]; exact h2
      · simp only [h, if_false, ite_false]
        intro kd hkd
        rcases List.mem_append.mp hkd with hkd | hkd
        · exact h2 kd hkd
        · simp only [List.mem_cons, List.not_mem_nil, or_false] at hkd
          rw [hkd]
          exact hd
    have hitems : ∀ it ∈ (processPage env opts st u d).2, it.2 ≤ opts.maxDepth := by
      intro it hit
      obtain ⟨heq, hlt⟩ := processPage_snd_depth env opts st u d it hit
      omega
    have hrest : ∀ it ∈ rest, it.2 ≤ opts.maxDepth :=
      fun it hit => hb it (List.mem_cons_of_mem _ hit)
    have hr := ih (processPage env opts st u d).1 hrest hlog
    refine ⟨hr.1, ?_⟩
    intro it hit
    show it.2 ≤ opts.maxDepth
    have : (processBatch env opts st ((u, d) :: rest)).2 =
        (processPage env opts st u d).2 ++
          (processBatch env opts (processPage env opts st u d).1 rest).2 := rfl
    rw [this] at hit
    rcases List.mem_append.mp hit with hit | hit
    · exact hitems it hit
    · exact hr.2 it hit

theorem crawlLoop_depth (env : CrawlEnv) (opts : CrawlOptions) :
    ∀ (fuel : Nat) (frontier : List (Chars × Nat)) (st : CrawlState),
    (∀ it ∈ frontier, it.2 ≤ opts.maxDepth) →
    (∀ kd ∈ st.fetchLog, kd.2 ≤ opts.maxDepth) →
    ∀ kd ∈ (crawlLoop env opts fuel frontier st).fetchLog, kd.2 ≤ opts.maxDepth := by
  intro fuel
  induction fuel with
  | zero => intro frontier st _ h2; exact h2
  | succ fuel ih =>
    intro frontier st h1 h2
    cases frontier with
    | nil => exact h2
    | cons item rest =>
      have hbatch : ∀ it ∈ (item :: rest).take opts.concurrency,
          it.2 ≤ opts.maxDepth :=
        fun it hit => h1 it (List.take_subset _ _ hit)
      have hb := processBatch_depth env opts ((item :: rest).take opts.concurrency)
        { st with batchLog := st.batchLog ++ [((item :: rest).take opts.concurrency).length] }
        hbatch h2
      refine ih _ _ ?_ hb.1
      intro it hit
      rcases List.mem_append.mp hit with hit | hit
      · exact h1 it (List.drop_subset _ _ hit)
      · exact hb.2 it hit

/-- C3 (amended): when `maxDepth ≥ 1`, or when sitemap seeding is
disabled, no frontier item with depth exceeding `maxDepth` is ever
fetched. (With `maxDepth = 0` and sitemap seeding on, seeds enter the
frontier at depth 1 and are fetched, so the claim as stated fails.) -/
theorem crawl_depth_bound (env : CrawlEnv) (opts : CrawlOptions) (startUrl : Chars)
    (fuel : Nat) (h : 1 ≤ opts.maxDepth ∨ opts.sitemap = false) :
    ∀ kd ∈ (crawl env opts startUrl fuel).fetchLog, kd.2 ≤ opts.maxDepth := by
  unfold crawl
  cases hp : env.parseOrigin startUrl with
  | none => simp
  | some o =>
    refine crawlLoop_depth env opts fuel _ ⟨[], [], []⟩ ?_ (by simp)
    intro it hit
    rcases List.mem_cons.mp hit with rfl | hit
    · exact Nat.zero_le _
    · rcases h with h | h
      · by_cases hs : opts.sitemap = true
        · simp only [hs, if_true, ite_true, List.mem_map] at hit
          obtain ⟨s, -, hseq⟩ := hit
          rw [← hseq]
          exact h
        · simp only [Bool.not_eq_true] at hs
          simp [hs] at hit
      · simp [h] at hit

/-- C3 witness: a concrete run of `crawl_depth_bound` on `demoEnv` with
`maxDepth = 2`, `concurrency = 2`, sitemap off. -/
theorem crawl_depth_bound_witness :
    (1 ≤ (2 : Nat) ∨ false = false) ∧
    ∀ kd ∈ (crawl demoEnv ⟨2, 2, false⟩ "http://e.com/".data 10).fetchLog,
      kd.2 ≤ 2 :=
  ⟨Or.inl (by decide),
    crawl_depth_bound demoEnv ⟨2, 2, false⟩ "http://e.com/".data 10 (Or.inl (by decide))⟩

/-- C3 counterexample: with `maxDepth = 0` and sitemap seeding enabled,
the sitemap seed `http://e.com/s` is fetched at depth 1 > 0, so the
claim as stated (every fetched depth ≤ maxDepth, sitemap on or off)
fails. -/
theorem crawl_depth_bound_counterexample :
    ¬(∀ kd ∈ (crawl demoEnv ⟨0, 1, true⟩ "http://e.com/".data 10).fetchLog,
        kd.2 ≤ 0) := by decide

theorem processBatch_batchLog (env : CrawlEnv) (opts : CrawlOptions) :
    ∀ (batch : List (Chars × Nat)) (st : CrawlState),
    (processBatch env opts st batch).1.batchLog = st.batchLog := by
  intro batch
  induction batch with
  | nil => intro st; rfl
  | cons item rest ih =>
    intro st
    obtain ⟨u, d⟩ := item
    show (processBatch env opts (processPage env opts st u d).1 rest).1.batchLog = _
    rw [ih, processPage_fst]
    by_cases h : canonKey u ∈ st.seen
    · simp [h]
    · simp [h]

theorem crawlLoop_batches (env : CrawlEnv) (opts : CrawlOptions) :
    ∀ (fuel : Nat) (frontier : List (Chars × Nat)) (st : CrawlState),
    (∀ b ∈ st.batchLog, b ≤ opts.concurrency) →
    ∀ b ∈ (crawlLoop env opts fuel frontier st).batchLog, b ≤ opts.concurrency := by
  intro fuel
  induction fuel with
  | zero => intro frontier st h; exact h
  | succ fuel ih =>
    intro frontier st h
    cases frontier with
    | nil => exact h
    | cons item rest =>
      refine ih _ _ ?_
      rw [processBatch_batchLog]
      intro b hb
      rcases List.mem_append.mp hb with hb | hb
      · exact h b hb
      · simp only [List.mem_cons, List.not_mem_nil, or_false] at hb
        rw [hb, List.length_take]
        exact Nat.min_le_left _ _

/-- C8 (amended): the drain loop dispatches batches of at most
`concurrency` pages, so page-level parallelism is bounded; the asset
sub-tasks spawned inside `rewriteAndSaveHTML` bypass the limiter (see
the counterexample), so total in-flight network operations are not. -/
theorem crawl_batches_bounded (env : CrawlEnv) (opts : CrawlOptions) (startUrl : Chars)
    (fuel : Nat) :
    ∀ b ∈ (crawl env opts startUrl fuel).batchLog, b ≤ opts.concurrency := by
  unfold crawl
  cases hp : env.parseOrigin startUrl with
  | none => simp
  | some o => exact crawlLoop_batches env opts fuel _ ⟨[], [], []⟩ (by simp)

/-- C8 witness: `crawl_batches_bounded` applied to a concrete run on
`demoEnv` with concurrency 2, at the batch size 1 recorded in its
batch log. -/
theorem crawl_batches_bounded_witness :
    (1 : Nat) ∈ (crawl demoEnv ⟨2, 2, false⟩ "http://e.com/".data 10).batchLog ∧
    (1 : Nat) ≤ (CrawlOptions.mk 2 2 false).concurrency :=
  ⟨by decide, crawl_batches_bounded demoEnv ⟨2, 2, false⟩ "http://e.com/".data 10 1
    (by decide)⟩

/-- C8 counterexample: one page holding two images, crawled with
`concurrency = 1`, spawns two asset sub-tasks; each starts its network
request synchronously at spawn and both are pending under one
`Promise.all`, so two network operations are in flight although the
configured limit is 1 — the claim as stated fails. -/
theorem crawl_inflight_counterexample :
    (rewriteAndSaveHTML demoRewriteEnv demoRoot demoRoot demoImgDoc "out".data
        ⟨true, PlaceholderStrategy.external⟩).map RewriteResult.spawnedTasks =
      Except.ok 2 ∧
    ¬(2 ≤ (CrawlOptions.mk 0 1 false).concurrency) :=
  ⟨rfl, by decide⟩

/-! ## Image rewriting (C7) -/

/-- C7: every `<img>` with a parseable src is processed regardless of
the `allowExternalAssets` flag (the rewritten image list is the same
map for either flag value, with no origin check); its `src` becomes the
placeholder result, `width`/`height` are only filled in when the
existing attribute is absent or empty, and `srcset` is removed. -/
theorem rewriteAndSaveHTML_imgs (env : RewriteEnv) (root pageUrl : Url) (doc : Doc)
    (outDir : Chars) (b₁ b₂ : Bool) (strat : PlaceholderStrategy) (r : RewriteResult)
    (hok : rewriteAndSaveHTML env root pageUrl doc outDir ⟨b₁, strat⟩ = .ok r) :
    r.doc.imgs = doc.imgs.map
      (fun img => (processImg env ⟨b₂, strat⟩ root pageUrl outDir img).1) ∧
    ∀ img : ImgEl, ∀ url, env.resolve img.src pageUrl = some url →
      (processImg env ⟨b₂, strat⟩ root pageUrl outDir img).1.srcset = none ∧
      (processImg env ⟨b₂, strat⟩ root pageUrl outDir img).1.src =
        (if strat = PlaceholderStrategy.localImg ∧ (env.placeholder url).src ≠ [] then
          makeRelative (urlToLocalPath root pageUrl outDir none) (env.placeholder url).src
        else (env.placeholder url).src) ∧
      (attrTruthy img.width = true →
        (processImg env ⟨b₂, strat⟩ root pageUrl outDir img).1.width = img.width) ∧
      (attrTruthy img.height = true →
        (processImg env ⟨b₂, strat⟩ root pageUrl outDir img).1.height = img.height) ∧
      (∀ w, attrTruthy img.width = false → (env.placeholder url).width = some w →
        w ≠ 0 →
        (processImg env ⟨b₂, strat⟩ root pageUrl outDir img).1.width =
          some (Nat.repr w).data) := by
  constructor
  · simp only [rewriteAndSaveHTML] at hok
    by_cases hany : (doc.stylesheets.map
        (processLink env ⟨b₁, strat⟩ root pageUrl outDir)).any (fun r => r.2.2) = true
    · rw [if_pos hany] at hok
      exact absurd hok (by simp)
    · rw [if_neg hany] at hok
      injection hok with hr
      rw [← hr]
      simp only [List.map_map]
      exact List.map_congr_left fun img _ => rfl
  · intro img url hres
    have hps : processImg env ⟨b₂, strat⟩ root pageUrl outDir img =
        (⟨if strat = PlaceholderStrategy.localImg ∧ (env.placeholder url).src ≠ [] then
            makeRelative (urlToLocalPath root pageUrl outDir none) (env.placeholder url).src
          else (env.placeholder url).src,
          (match (env.placeholder url).width with
            | some w => if w ≠ 0 ∧ attrTruthy img.width = false
                then some (Nat.repr w).data else img.width
            | none => img.width),
          (match (env.placeholder url).height with
            | some h => if h ≠ 0 ∧ attrTruthy img.height = false
                then some (Nat.repr h).data else img.height
            | none => img.height),
          none⟩, true) := by
      simp only [processImg, hres]
    refine ⟨by rw [hps], by rw [hps], ?_, ?_, ?_⟩
    · intro hw
      rw [hps]
      cases hpw : (env.placeholder url).width with
      | none => simp [hpw]
      | some w => simp [hpw, hw]
    · intro hh
      rw [hps]
      cases hph : (env.placeholder url).height with
      | none => simp [hph]
      | some hv => simp [hph, hh]
    · intro w hw hpw hwne
      rw [hps]
      simp [hpw, hw, hwne]

/-! ## Retry/backoff (C4) -/

theorem range_shift_cons (b i n : Nat) :
    (b * 2 ^ (i + 0)) :: (List.range n).map (fun k => b * 2 ^ (i + 1 + k)) =
      (List.range (n + 1)).map (fun k => b * 2 ^ (i + k)) := by
  rw [List.range_succ_eq_map, List.map_cons, List.map_map]
  congr 1
  refine List.map_congr_left fun k _ => ?_
  show b * 2 ^ (i + 1 + k) = b * 2 ^ (i + (k + 1))
  have h : i + 1 + k = i + (k + 1) := by omega
  rw [h]

theorem retryGo_fail_step (att : Nat → AttemptOutcome) (b rem i : Nat)
    (le : Option FetchErr) (ws : List Nat) (e : FetchErr)
    (he : attemptFails (att i) = some e) :
    retryGo att b (rem + 1) i le ws =
      retryGo att b rem (i + 1) (some e)
        (if 0 < rem then ws ++ [b * 2 ^ i] else ws) := by
  cases hatt : att i with
  | netErr c =>
    rw [hatt] at he
    have he' : FetchErr.net c = e := by simpa [attemptFails] using he
    subst he'
    simp only [retryGo, hatt]
  | resp s =>
    rw [hatt] at he
    simp only [attemptFails] at he
    by_cases hok : respOk s = true
    · rw [if_pos hok] at he; exact absurd he (by simp)
    · rw [if_neg hok] at he
      have he' : FetchErr.http s = e := by simpa using he
      subst he'
      simp only [retryGo, hatt, hok]
      simp

theorem retryGo_all_fail (att : Nat → AttemptOutcome) (b : Nat) :
    ∀ (rem i : Nat) (le : Option FetchErr) (ws : List Nat),
    (∀ j, i ≤ j → j < i + rem → attemptFails (att j) ≠ none) →
    retryGo att b rem i le ws =
      ⟨.error (if rem = 0 then le else attemptFails (att (i + rem - 1))),
        ws ++ (List.range (rem - 1)).map (fun k => b * 2 ^ (i + k)), i + rem⟩ := by
  intro rem
  induction rem with
  | zero => intro i le ws _; simp [retryGo]
  | succ rem ih =>
    intro i le ws h
    have hi := h i (Nat.le_refl i) (by omega)
    have hrec : ∀ e, retryGo att b rem (i + 1) (some e)
        (if 0 < rem then ws ++ [b * 2 ^ i] else ws) =
        ⟨.error (if rem = 0 then some e else attemptFails (att (i + 1 + rem - 1))),
          (if 0 < rem then ws ++ [b * 2 ^ i] else ws) ++
            (List.range (rem - 1)).map (fun k => b * 2 ^ (i + 1 + k)), i + 1 + rem⟩ := by
      intro e
      exact ih (i + 1) (some e) _ (fun j hj1 hj2 => h j (by omega) (by omega))
    have hgoal : ∀ e, attemptFails (att i) = some e →
        retryGo att b (rem + 1) i le ws =
          ⟨.error (if rem + 1 = 0 then le else attemptFails (att (i + (rem + 1) - 1))),
            ws ++ (List.range (rem + 1 - 1)).map (fun k => b * 2 ^ (i + k)),
            i + (rem + 1)⟩ := by
      intro e he
      rw [retryGo_fail_step att b rem i le ws e he, hrec e]
      simp only [RetryTrace.mk.injEq]
      refine ⟨?_, ?_, by omega⟩
      · cases rem with
        | zero => simp [he.symm]
        | succ r =>
          have h1 : i + 1 + (r + 1) - 1 = i + (r + 1 + 1) - 1 := by omega
          simp [h1]
      · cases rem with
        | zero => simp
        | succ r =>
          have h0 : (0 : Nat) < r + 1 := by omega
          rw [if_pos h0, List.append_assoc]
          congr 1
          exact range_shift_cons b i r
    cases he : attemptFails (att i) with
    | none => exact absurd he hi
    | some e => exact hgoal e he

theorem retryGo_first_ok (att : Nat → AttemptOutcome) (b : Nat) :
    ∀ (rem i : Nat) (le : Option FetchErr) (ws : List Nat) (m s : Nat),
    i ≤ m → m < i + rem →
    (∀ j, i ≤ j → j < m → attemptFails (att j) ≠ none) →
    att m = .resp s → respOk s = true →
    retryGo att b rem i le ws =
      ⟨.ok (m, s), ws ++ (List.range (m - i)).map (fun k => b * 2 ^ (i + k)), m + 1⟩ := by
  intro rem
  induction rem with
  | zero => intro i le ws m s him hm _ _ _; exact absurd hm (by omega)
  | succ rem ih =>
    intro i le ws m s him hm hfail hatt hok
    by_cases heq : i = m
    · subst heq
      simp only [retryGo, hatt, hok]
      simp [Nat.sub_self]
    · have him' : i < m := by omega
      have hrem : 0 < rem := by omega
      cases he : attemptFails (att i) with
      | none => exact absurd he (hfail i (Nat.le_refl i) him')
      | some e =>
        rw [retryGo_fail_step att b rem i le ws e he, if_pos hrem,
          ih (i + 1) (some e) (ws ++ [b * 2 ^ i]) m s (by omega) (by omega)
            (fun j h1 h2 => hfail j (by omega) h2) hatt hok]
        simp only [RetryTrace.mk.injEq, and_true, true_and, eq_self_iff_true]
        rw [List.append_assoc]
        congr 1
        have hmi : m - i = (m - (i + 1)) + 1 := by omega
        rw [hmi]
        exact range_shift_cons b i (m - (i + 1))

/-- C4: `fetchWithRetry` makes at most `tries` attempts; a network
error or non-2xx response counts as a failure; a failed attempt `i`
that is not the last is followed by a wait of `backoffMs * 2 ^ i` and
the final attempt is never followed by a wait; the first successful
response is returned immediately (attempt index `m` succeeds after `m`
failures and exactly the waits `backoffMs * 2 ^ 0 .. 2 ^ (m-1)`); if
every attempt fails the last error is thrown after exactly `tries`
attempts. -/
theorem fetchWithRetry_spec (att : Nat → AttemptOutcome) (tries b : Nat) :
    ((fetchWithRetry att tries b).attempts ≤ tries ∧
      (fetchWithRetry att tries b).waits.length ≤ tries - 1 ∧
      (fetchWithRetry att tries b).waits =
        (List.range (fetchWithRetry att tries b).waits.length).map
          (fun i => b * 2 ^ i)) ∧
    (∀ m s, m < tries → (∀ j, j < m → attemptFails (att j) ≠ none) →
      att m = .resp s → respOk s = true →
      fetchWithRetry att tries b =
        ⟨.ok (m, s), (List.range m).map (fun i => b * 2 ^ i), m + 1⟩) ∧
    ((∀ j, j < tries → attemptFails (att j) ≠ none) → 0 < tries →
      fetchWithRetry att tries b =
        ⟨.error (attemptFails (att (tries - 1))),
          (List.range (tries - 1)).map (fun i => b * 2 ^ i), tries⟩) := by
  have hsucc : ∀ m s, m < tries → (∀ j, j < m → attemptFails (att j) ≠ none) →
      att m = .resp s → respOk s = true →
      fetchWithRetry att tries b =
        ⟨.ok (m, s), (List.range m).map (fun i => b * 2 ^ i), m + 1⟩ := by
    intro m s hm hfirst hatt hok
    have heq := retryGo_first_ok att b tries 0 none [] m s (Nat.zero_le m)
      (by omega) (fun j _ hj => hfirst j hj) hatt hok
    rw [fetchWithRetry, heq]
    simp [Nat.zero_add]
  have hfailAll : (∀ j, j < tries → attemptFails (att j) ≠ none) → 0 < tries →
      fetchWithRetry att tries b =
        ⟨.error (attemptFails (att (tries - 1))),
          (List.range (tries - 1)).map (fun i => b * 2 ^ i), tries⟩ := by
    intro hall hpos
    have heq := retryGo_all_fail att b tries 0 none []
      (fun j _ hj => hall j (by omega))
    rw [fetchWithRetry, heq]
    have hne : ¬(tries = 0) := by omega
    simp [hne, Nat.zero_add]
  refine ⟨?_, hsucc, hfailAll⟩
  by_cases hex : ∃ m, m < tries ∧ attemptFails (att m) = none
  · obtain ⟨m₀, hm₀, hnone⟩ := hex
    have hfind : ∃ m, attemptFails (att m) = none := ⟨m₀, hnone⟩
    have hn : attemptFails (att (Nat.find hfind)) = none := Nat.find_spec hfind
    have hmin : ∀ j, j < Nat.find hfind → attemptFails (att j) ≠ none :=
      fun j hj => Nat.find_min hfind hj
    have hn_lt : Nat.find hfind < tries :=
      Nat.lt_of_le_of_lt (Nat.find_min' hfind hnone) hm₀
    obtain ⟨s, hatt, hok⟩ : ∃ s, att (Nat.find hfind) = .resp s ∧ respOk s = true := by
      cases hattn : att (Nat.find hfind) with
      | netErr c =>
        rw [hattn] at hn
        exact absurd hn (by simp [attemptFails])
      | resp s =>
        rw [hattn] at hn
        simp only [attemptFails] at hn
        by_cases hok : respOk s = true
        · exact ⟨s, rfl, hok⟩
        · rw [if_neg hok] at hn; exact absurd hn (by simp)
    rw [hsucc (Nat.find hfind) s hn_lt hmin hatt hok]
    refine ⟨by simp; omega, ?_, ?_⟩
    · simp only [List.length_map, List.length_range]
      omega
    · simp
  · push_neg at hex
    by_cases htr : tries = 0
    · subst htr
      refine ⟨?_, ?_, ?_⟩ <;> simp [fetchWithRetry, retryGo]
    · have hall : ∀ j, j < tries → attemptFails (att j) ≠ none := fun j hj => hex j hj
      rw [hfailAll hall (by omega)]
      refine ⟨by simp, ?_, ?_⟩
      · simp only [List.length_map, List.length_range]
        omega
      · simp

/-- C4 witness: two network failures then a 200 response with
`tries = 3`, `backoffMs = 400` yields the success on attempt 2 after
sleeping 400 then 800. -/
theorem fetchWithRetry_spec_witness :
    fetchWithRetry (fun i => if i < 2 then AttemptOutcome.netErr 0 else .resp 200) 3 400 =
      ⟨.ok (2, 200), [400, 800], 3⟩ :=
  ((fetchWithRetry_spec (fun i => if i < 2 then AttemptOutcome.netErr 0 else .resp 200)
      3 400).2.1 2 200 (by decide) (by decide) (by decide) (by decide)).trans (by rfl)

/-! ## Stylesheet processing (C5) -/

/-- C5: `processStylesheet` propagates the fetch error when the
stylesheet itself cannot be retrieved; once the text is obtained it
always succeeds, writing the rewritten CSS to its mapped local path as
the first event, before any scheduled download is awaited, and the
returned path and written content do not depend on the download
outcomes (`downloadBinary` returns false instead of throwing). -/
theorem processStylesheet_spec (env : StylesheetEnv) (root cssUrl : Url)
    (outDir : Chars) (allow : Bool) :
    (env.fetchText cssUrl = none →
      processStylesheet env root cssUrl outDir allow = .error ()) ∧
    (∀ css, env.fetchText cssUrl = some css →
      ∃ rewritten dls,
        processStylesheet env root cssUrl outDir allow =
          .ok (urlToLocalPath root cssUrl outDir none,
            CssEvent.write (urlToLocalPath root cssUrl outDir none) rewritten :: dls) ∧
        ∀ e ∈ dls, ∃ u dest sil ok, e = CssEvent.awaitDownload u dest sil ok) ∧
    (∀ f g, (processStylesheet { env with downloadOk := f } root cssUrl outDir
        allow).map (fun r => (r.1, r.2.head?)) =
      (processStylesheet { env with downloadOk := g } root cssUrl outDir
        allow).map (fun r => (r.1, r.2.head?))) := by
  refine ⟨?_, ?_, ?_⟩
  · intro h
    simp [processStylesheet, h]
  · intro css h
    simp only [processStylesheet, h]
    refine ⟨_, _, rfl, ?_⟩
    intro e he
    simp only [List.mem_map] at he
    obtain ⟨t, -, ht⟩ := he
    exact ⟨t.url, t.dest, t.silent, _, ht.symm⟩
  · intro f g
    cases h : env.fetchText cssUrl with
    | none => simp [processStylesheet, h]
    | some css =>
      simp only [processStylesheet, h]
      rfl

/-- C5 witness: a stylesheet `body { x: url(/a.png) }` (brace-free in
this model input) whose asset download fails still yields a successful
write; and a failing stylesheet fetch propagates as an error. -/
theorem processStylesheet_spec_witness :
    ((StylesheetEnv.mk (fun _ => none) (fun _ _ => none) (fun _ _ => false)).fetchText
        demoRoot = none →
      processStylesheet ⟨fun _ => none, fun _ _ => none, fun _ _ => false⟩
        demoRoot demoRoot "out".data true = .error ()) ∧
    ((StylesheetEnv.mk (fun _ => none) (fun _ _ => none) (fun _ _ => false)).fetchText
        demoRoot = none) :=
  ⟨(processStylesheet_spec ⟨fun _ => none, fun _ _ => none, fun _ _ => false⟩
      demoRoot demoRoot "out".data true).1, rfl⟩

/-! ## Sitemap seeding under a browser session (C9) -/

/-- C9: whenever a browser session is active, `discoverFromSitemap`
returns the empty list immediately and fetches neither sitemap
candidate. -/
theorem discoverFromSitemap_browser_skip (env : SitemapEnv) (root : Url)
    (h : hasBrowserSession env = true) :
    discoverFromSitemap env root = ([], []) := by
  unfold hasBrowserSession at h
  unfold discoverFromSitemap
  simp [h]

/-- C9 witness: a concrete environment with an active browser session
and a sitemap that would yield a URL still discovers nothing and
fetches nothing. -/
theorem discoverFromSitemap_browser_skip_witness :
    discoverFromSitemap ⟨true, fun _ => some "<loc>http://e.com/a</loc>".data⟩
      demoRoot = ([], []) :=
  discoverFromSitemap_browser_skip ⟨true, fun _ => some "<loc>http://e.com/a</loc>".data⟩
    demoRoot rfl

/-! ## Relative references (C6) -/

/-- C6 (amended): every `makeRelative` result begins with the character
`.` — but not necessarily with `./` or `../`: the final `./`-prefixing
step only checks `startsWith('.')`, so a target inside a dot-named
directory keeps a bare `.hidden/...` reference. -/
theorem makeRelative_starts_with_dot (fromFile toFile : Chars) :
    (makeRelative fromFile toFile).head? = some '.' := by
  simp only [makeRelative]
  by_cases h : (pathRelative (dirname fromFile) toFile).head? = some '.'
  · rw [if_pos h]
    cases hr : pathRelative (dirname fromFile) toFile with
    | nil => rw [hr] at h; exact absurd h (by simp)
    | cons c cs =>
      rw [hr] at h
      simp only [List.head?_cons, Option.some.injEq] at h
      subst h
      simp
  · rw [if_neg h]
    simp

/-- C6 counterexample: `makeRelative('/out/x.html', '/out/.hidden/y.css')`
returns `.hidden/y.css`, which begins with neither `./` nor `../`. -/
theorem makeRelative_counterexample :
    List.take 2 (makeRelative "/out/x.html".data "/out/.hidden/y.css".data) ≠
      "./".data ∧
    List.take 3 (makeRelative "/out/x.html".data "/out/.hidden/y.css".data) ≠
      "../".data ∧
    makeRelative "/out/x.html".data "/out/.hidden/y.css".data = ".hidden/y.css".data :=
  ⟨by decide, by decide, by decide⟩

/-! ## Link extraction (C10) -/

theorem splitHead_append_of_not_mem {c : Char} {a : Chars} (b : Chars) (h : c ∉ a) :
    splitHead c (a ++ b) = a ++ splitHead c b := by
  unfold splitHead
  refine List.takeWhile_append_of_pos ?_
  intro x hx
  simp only [decide_eq_true_eq]
  intro hxc
  exact h (hxc ▸ hx)

theorem not_mem_splitHead (c : Char) (s : Chars) : c ∉ splitHead c s := by
  intro hmem
  have hp := List.mem_takeWhile_imp hmem
  simp at hp

theorem canonKey_str {r : ResolvedUrl} (h1 : '#' ∉ r.origin) (h2 : '#' ∉ r.pathq) :
    canonKey r.str = r.origin ++ r.pathq := by
  unfold canonKey ResolvedUrl.str
  rw [List.append_assoc, splitHead_append_of_not_mem _ h1,
    splitHead_append_of_not_mem _ h2]
  by_cases hf : r.frag = []
  · simp [hf, splitHead]
  · rw [if_neg hf]
    have hsh : splitHead '#' ('#' :: r.frag) = [] := by
      simp [splitHead, List.takeWhile_cons]
    rw [hsh]
    simp

theorem extractLinksGo_inv (env : LinksEnv) (rootOrigin : Chars)
    (hwf : ∀ href u, env.resolve href = some u → '#' ∉ u.origin ∧ '#' ∉ u.pathq)
    (acc : List Chars) (href : Chars)
    (h1 : acc.Nodup)
    (h2 : ∀ u ∈ acc, '#' ∉ u ∧ ∃ r : ResolvedUrl, r.origin = rootOrigin ∧
      u = r.origin ++ r.pathq ∧ ∃ h, env.resolve h = some r) :
    (extractLinksGo env rootOrigin acc href).Nodup ∧
    ∀ u ∈ extractLinksGo env rootOrigin acc href, '#' ∉ u ∧
      ∃ r : ResolvedUrl, r.origin = rootOrigin ∧ u = r.origin ++ r.pathq ∧
        ∃ h, env.resolve h = some r := by
  unfold extractLinksGo
  by_cases hskip : trimChars href = [] ∨
      List.isPrefixOf "mailto:".data (trimChars href) = true ∨
      List.isPrefixOf "tel:".data (trimChars href) = true ∨
      List.isPrefixOf "javascript:".data (trimChars href) = true
  · rw [if_pos hskip]
    exact ⟨h1, h2⟩
  · rw [if_neg hskip]
    cases hres : env.resolve (trimChars href) with
    | none => exact ⟨h1, h2⟩
    | some url =>
      dsimp only
      by_cases ho : url.origin = rootOrigin
      · rw [if_pos ho]
        by_cases hm : canonKey url.str ∈ acc
        · rw [if_pos hm]
          exact ⟨h1, h2⟩
        · rw [if_neg hm]
          have hgood : '#' ∉ canonKey url.str ∧ ∃ r : ResolvedUrl,
              r.origin = rootOrigin ∧ canonKey url.str = r.origin ++ r.pathq ∧
                ∃ h, env.resolve h = some r := by
            obtain ⟨ho1, ho2⟩ := hwf (trimChars href) url hres
            exact ⟨not_mem_splitHead '#' url.str,
              url, ho, canonKey_str ho1 ho2, trimChars href, hres⟩
          constructor
          · rw [List.nodup_append]
            refine ⟨h1, by simp, ?_⟩
            intro u hu
            simp only [List.mem_cons, List.not_mem_nil, or_false]
            intro hk
            exact hm (hk ▸ hu)
          · intro u hu
            rcases List.mem_append.mp hu with hu | hu
            · exact h2 u hu
            · simp only [List.mem_cons, List.not_mem_nil, or_false] at hu
              exact hu ▸ hgood
      · rw [if_neg ho]
        exact ⟨h1, h2⟩

theorem extractLinks_foldl_inv (env : LinksEnv) (rootOrigin : Chars)
    (hwf : ∀ href u, env.resolve href = some u → '#' ∉ u.origin ∧ '#' ∉ u.pathq) :
    ∀ (hrefs : List Chars) (acc : List Chars),
    acc.Nodup →
    (∀ u ∈ acc, '#' ∉ u ∧ ∃ r : ResolvedUrl, r.origin = rootOrigin ∧
      u = r.origin ++ r.pathq ∧ ∃ h, env.resolve h = some r) →
    (List.foldl (extractLinksGo env rootOrigin) acc hrefs).Nodup ∧
    ∀ u ∈ List.foldl (extractLinksGo env rootOrigin) acc hrefs, '#' ∉ u ∧
      ∃ r : ResolvedUrl, r.origin = rootOrigin ∧ u = r.origin ++ r.pathq ∧
        ∃ h, env.resolve h = some r := by
  intro hrefs
  induction hrefs with
  | nil => intro acc h1 h2; exact ⟨h1, h2⟩
  | cons href rest ih =>
    intro acc h1 h2
    have hstep := extractLinksGo_inv env rootOrigin hwf acc href h1 h2
    exact ih _ hstep.1 hstep.2

/-- C10: `extractLinks` returns no duplicate URL strings, and every
returned URL has an empty fragment (it contains no `#` and is the
fragment-stripped serialization of a resolved href) and origin equal to
the root's. -/
theorem extractLinks_spec (env : LinksEnv) (rootOrigin : Chars) (hrefs : List Chars)
    (hwf : ∀ href u, env.resolve href = some u → '#' ∉ u.origin ∧ '#' ∉ u.pathq) :
    (extractLinks env rootOrigin hrefs).Nodup ∧
    ∀ u ∈ extractLinks env rootOrigin hrefs, '#' ∉ u ∧
      ∃ r : ResolvedUrl, r.origin = rootOrigin ∧ u = r.origin ++ r.pathq ∧
        ∃ h, env.resolve h = some r :=
  extractLinks_foldl_inv env rootOrigin hwf hrefs [] (by simp) (by simp)

/-- C10 witness: hrefs `/a`, `/a#y` and `mailto:z` against a concrete
resolver yield a deduplicated fragment-free same-origin URL list. -/
theorem extractLinks_spec_witness :
    (extractLinks demoLinksEnv "http://e.com".data
      ["/a".data, "/a#y".data, "mailto:z".data]).Nodup ∧
    ∀ u ∈ extractLinks demoLinksEnv "http://e.com".data
        ["/a".data, "/a#y".data, "mailto:z".data], '#' ∉ u ∧
      ∃ r : ResolvedUrl, r.origin = "http://e.com".data ∧
        u = r.origin ++ r.pathq ∧ ∃ h, demoLinksEnv.resolve h = some r :=
  extractLinks_spec demoLinksEnv "http://e.com".data
    ["/a".data, "/a#y".data, "mailto:z".data]
    (fun href u h => by
      by_cases hc : href = "/a".data ∨ href = "/a#y".data
      · have h' : some (ResolvedUrl.mk "http://e.com".data "/a".data "y".data) =
            some u := by
          rw [← h]
          show _ = demoLinksEnv.resolve href
          unfold demoLinksEnv
          dsimp only
          rw [if_pos hc]
        cases h'
        constructor <;> decide
      · have h' : demoLinksEnv.resolve href = none := by
          show (if href = "/a".data ∨ href = "/a#y".data then
            some (ResolvedUrl.mk "http://e.com".data "/a".data "y".data)
            else none) = none
          rw [if_neg hc]
        rw [h'] at h
        exact absurd h (by simp))

/-- C7 witness: `rewriteAndSaveHTML_imgs` applied to the two-image demo
page, with `allowExternalAssets` true on the run and false in the
stated image map. -/
theorem rewriteAndSaveHTML_imgs_witness :
    (RewriteResult.mk
        ⟨[], [], [⟨"https://placehold.co/800x450".data, some "800".data,
            some "450".data, none⟩,
          ⟨"https://placehold.co/800x450".data, some "800".data,
            some "450".data, none⟩], []⟩
        "out/index.html".data 2).doc.imgs =
      demoImgDoc.imgs.map
        (fun img => (processImg demoRewriteEnv ⟨false, PlaceholderStrategy.external⟩
          demoRoot demoRoot "out".data img).1) :=
  (rewriteAndSaveHTML_imgs demoRewriteEnv demoRoot demoRoot demoImgDoc "out".data
    true false PlaceholderStrategy.external
    (RewriteResult.mk
      ⟨[], [], [⟨"https://placehold.co/800x450".data, some "800".data,
          some "450".data, none⟩,
        ⟨"https://placehold.co/800x450".data, some "800".data,
          some "450".data, none⟩], []⟩
      "out/index.html".data 2) (by rfl)).1

end SiteScraper
